import Mathlib

/-!
# Verification of the Minesweeper AI knowledge base (`minesweeper.py`)

This file gives a shallow embedding of the `Sentence` and `MinesweeperAI`
classes of `Project 1/minesweeper/minesweeper.py` and proves properties of the
knowledge-base update and inference fixpoint, the move-selection queries, and
the relevant invariants.

Modelling conventions:
* A board cell `(i, j)` is a pair of integers (Python integers are unbounded).
* Python `set` fields become `Finset Cell`; the `self.knowledge` list of
  `Sentence` objects becomes `List Sentence`.  Sentence objects are appended
  exactly once each and never aliased in the Python code, so a list of values
  is a faithful model of the list of objects.
* The `while kb_updated` loop of `add_knowledge` has no structural bound in
  the source, so it is embedded with an explicit fuel parameter (`runLoop`);
  one unit of fuel is one pass of the loop body.  Termination questions are
  then statements about the Boolean "updated" flag of iterated passes.
* Python's `set.pop()` returns an unspecified element; the move-selection
  functions therefore take an explicit selection function `pick` together
  with (where needed) the hypothesis that `pick` returns a member.
* The Python methods mutate `self`; the embedding passes the `AI` state
  explicitly, and each method returns the state it leaves behind.
-/

abbrev Cell := Int × Int

/-- `Sentence(cells, count)`: a set of board cells and a count of how many of
them are mines.  Python `__eq__` compares `cells` and `count`, which is
structural equality here. -/
structure Sentence where
  cells : Finset Cell
  count : Int
deriving DecidableEq

namespace Sentence

/-- `Sentence.known_mines`: all of `cells` if `count == len(cells)`, else `∅`. -/
def known_mines (s : Sentence) : Finset Cell :=
  if s.count = (s.cells.card : Int) then s.cells else ∅

/-- `Sentence.known_safes`: all of `cells` if `count == 0 and self.cells`
(the Python truthiness test requires `cells` non-empty), else `∅`. -/
def known_safes (s : Sentence) : Finset Cell :=
  if s.count = 0 ∧ s.cells.Nonempty then s.cells else ∅

/-- `Sentence.mark_mine(cell)`: if `cell ∈ cells`, remove it and decrement
`count`; otherwise no-op. -/
def mark_mine (s : Sentence) (c : Cell) : Sentence :=
  if c ∈ s.cells then ⟨s.cells.erase c, s.count - 1⟩ else s

/-- `Sentence.mark_safe(cell)`: if `cell ∈ cells`, remove it, leaving `count`
unchanged; otherwise no-op. -/
def mark_safe (s : Sentence) (c : Cell) : Sentence :=
  if c ∈ s.cells then ⟨s.cells.erase c, s.count⟩ else s

end Sentence

/-- The state of a `MinesweeperAI` object: grid dimensions, the cells clicked
so far, the cells known to be mines or safe, and the list of sentences. -/
structure AI where
  height : Int
  width : Int
  moves_made : Finset Cell
  mines : Finset Cell
  safes : Finset Cell
  knowledge : List Sentence
deriving DecidableEq

/-- `MinesweeperAI.__init__(height, width)`. -/
def initAI (height width : Int) : AI :=
  ⟨height, width, ∅, ∅, ∅, []⟩

namespace AI

/-- `MinesweeperAI.mark_mine(cell)`: add to `self.mines` and call
`Sentence.mark_mine` on every sentence. -/
def mark_mine (ai : AI) (c : Cell) : AI :=
  { ai with mines := insert c ai.mines,
            knowledge := ai.knowledge.map (·.mark_mine c) }

/-- `MinesweeperAI.mark_safe(cell)`: add to `self.safes` and call
`Sentence.mark_safe` on every sentence. -/
def mark_safe (ai : AI) (c : Cell) : AI :=
  { ai with safes := insert c ai.safes,
            knowledge := ai.knowledge.map (·.mark_safe c) }

end AI

/-- The in-bounds neighbours of `cell`, excluding `cell` itself: the loops
`for r in range(row-1, row+2): for c in range(column-1, column+2)` of
`add_knowledge` with the bounds checks `0 <= r < height and 0 <= c < width`. -/
def neighbors (height width : Int) (cell : Cell) : Finset Cell :=
  ((Finset.Icc (cell.1 - 1) (cell.1 + 1)) ×ˢ (Finset.Icc (cell.2 - 1) (cell.2 + 1))).filter
    (fun p => p ≠ cell ∧ 0 ≤ p.1 ∧ p.1 < height ∧ 0 ≤ p.2 ∧ p.2 < width)

/-- Lines 197–227 of `add_knowledge`, before the `while kb_updated` loop:
record the move, mark the probed cell safe, build the neighbour sentence
(dropping neighbours already known to be mines — decrementing `count` for
each — or safe), and append it unless an equal sentence is already present. -/
def addObservation (ai : AI) (cell : Cell) (count : Int) : AI :=
  let ai1 := AI.mark_safe { ai with moves_made := insert cell ai.moves_made } cell
  let nbrs := neighbors ai1.height ai1.width cell
  let newCount := count - ((nbrs ∩ ai1.mines).card : Int)
  let remaining := nbrs \ (ai1.mines ∪ ai1.safes)
  let ns : Sentence := ⟨remaining, newCount⟩
  if ns ∈ ai1.knowledge then ai1 else { ai1 with knowledge := ai1.knowledge ++ [ns] }

/-- A total order on cells, used only to enumerate a Python `set` when the
source iterates over it (`for mine in known_mines:`); the iteration order of a
Python set is unspecified, and the marking operations commute, so any fixed
enumeration is faithful. -/
def cellLE (a b : Cell) : Prop :=
  a.1 < b.1 ∨ (a.1 = b.1 ∧ a.2 ≤ b.2)

instance : DecidableRel cellLE := fun a b =>
  inferInstanceAs (Decidable (_ ∨ _))

instance : IsTrans Cell cellLE where
  trans a b c h1 h2 := by unfold cellLE at *; omega

instance : IsAntisymm Cell cellLE where
  antisymm a b h1 h2 := by
    unfold cellLE at *
    have h : a.1 = b.1 ∧ a.2 = b.2 := by omega
    exact Prod.ext h.1 h.2

instance : IsTotal Cell cellLE where
  total a b := by unfold cellLE; omega

/-- Enumerate a finite set of cells as a list (its `cellLE`-sorted list;
insertion sort is used so that the definition reduces definitionally). -/
def enumCells (s : Finset Cell) : List Cell :=
  Quot.lift (fun l => List.insertionSort cellLE l)
    (fun l₁ l₂ h =>
      List.eq_of_perm_of_sorted
        (((List.perm_insertionSort cellLE l₁).trans h).trans
          (List.perm_insertionSort cellLE l₂).symm)
        (List.sorted_insertionSort cellLE l₁)
        (List.sorted_insertionSort cellLE l₂)) s.1

/-- One step of the `known_mines` accumulation of the sentence scan
(the `if sentence.known_mines():` branch). -/
def knownMinesStep (acc : Finset Cell) (s : Sentence) : Finset Cell :=
  if s.known_mines.Nonempty then acc ∪ s.known_mines else acc

/-- One step of the `known_safes` accumulation of the sentence scan: the
`elif` branch runs only when `sentence.known_mines()` is empty. -/
def knownSafesStep (acc : Finset Cell) (s : Sentence) : Finset Cell :=
  if s.known_mines.Nonempty then acc
  else if s.known_safes.Nonempty then acc ∪ s.known_safes else acc

/-- The union of `sentence.known_mines()` over the sentence scan of one pass. -/
def passKnownMines (kb : List Sentence) : Finset Cell :=
  kb.foldl knownMinesStep ∅

/-- The union of `sentence.known_safes()` over the sentence scan of one pass. -/
def passKnownSafes (kb : List Sentence) : Finset Cell :=
  kb.foldl knownSafesStep ∅

/-- Whether the sentence scan of one pass sets `kb_updated`: some sentence has
non-empty `known_mines()`, or (failing that) non-empty `known_safes()`, or
contains a cell of `self.mines` (the `discarded` purge). -/
def passFlag (mines : Finset Cell) (kb : List Sentence) : Bool :=
  kb.any (fun s =>
    (if s.known_mines.Nonempty then true else decide s.known_safes.Nonempty)
      || decide (s.cells ∩ mines).Nonempty)

/-- The inferred sentence `Sentence(s1.cells - s2.cells, s1.count - s2.count)`
of the subset-inference rule. -/
def mkInference (s1 s2 : Sentence) : Sentence :=
  ⟨s1.cells \ s2.cells, s1.count - s2.count⟩

/-- The body of the inner `for s2 in self.knowledge` loop: if
`s1.cells != s2.cells` and `s2.cells ⊆ s1.cells`, append the inferred
sentence unless it is already in the knowledge list `kb` or already collected
in `acc` this pass. -/
def inferStep (kb : List Sentence) (s1 : Sentence) (acc : List Sentence) (s2 : Sentence) :
    List Sentence :=
  if s1.cells ≠ s2.cells ∧ s2.cells ⊆ s1.cells then
    if mkInference s1 s2 ∉ kb ∧ mkInference s1 s2 ∉ acc then acc ++ [mkInference s1 s2]
    else acc
  else acc

/-- The `inferences` list built by the nested `for s1 ... for s2` loops over
the knowledge list. -/
def inferencesFor (kb : List Sentence) : List Sentence :=
  kb.foldl (fun acc1 s1 => kb.foldl (inferStep kb s1) acc1) []

/-- The `sentence.cells -= discarded` purge of one pass: remove from every
sentence the cells already in `self.mines` (`count` is untouched). -/
def purgeKnowledge (mines : Finset Cell) (kb : List Sentence) : List Sentence :=
  kb.map (fun s => { s with cells := s.cells \ mines })

/-- The marking phase of one pass: after the sentence scan, purge the
sentences, then call `MinesweeperAI.mark_mine` for every cell collected in
`known_mines` and `MinesweeperAI.mark_safe` for every cell collected in
`known_safes` (the scan reads the pre-purge sentences, as in the source,
where each sentence's `known_mines()`/`known_safes()` is evaluated before its
own purge and marking happens after the whole scan). -/
def applyMarks (ai : AI) : AI :=
  let ai1 := { ai with knowledge := purgeKnowledge ai.mines ai.knowledge }
  let ai2 := (enumCells (passKnownMines ai.knowledge)).foldl AI.mark_mine ai1
  (enumCells (passKnownSafes ai.knowledge)).foldl AI.mark_safe ai2

/-- One pass of the `while kb_updated` loop of `add_knowledge` (lines
233–271): scan sentences for known mines/safes and purge cells already in
`self.mines`, apply `mark_mine`/`mark_safe` for every discovery, drop
sentences with empty cell sets, then extend the knowledge list with the new
subset inferences.  Returns the new state and the `kb_updated` flag. -/
def loopStep (ai : AI) : AI × Bool :=
  let ai3 := applyMarks ai
  let kb4 := ai3.knowledge.filter (fun s => s.cells.Nonempty)
  let infs := inferencesFor kb4
  ({ ai3 with knowledge := kb4 ++ infs }, passFlag ai.mines ai.knowledge || !infs.isEmpty)

/-- Run the `while kb_updated` loop for at most `fuel` passes (the Python
loop has no built-in bound; each pass re-tests the flag). -/
def runLoop : Nat → AI → AI
  | 0, ai => ai
  | fuel + 1, ai =>
    let r := loopStep ai
    if r.2 then runLoop fuel r.1 else r.1

/-- `MinesweeperAI.add_knowledge(cell, count)`: the observation phase followed
by the inference fixpoint loop, run with `fuel` passes available. -/
def add_knowledge (fuel : Nat) (ai : AI) (cell : Cell) (count : Int) : AI :=
  runLoop fuel (addObservation ai cell count)

/-- A whole interaction: fold `add_knowledge` over a list of
`(cell, count)` calls starting from a freshly constructed AI. -/
def runGame (fuel : Nat) (height width : Int) (calls : List (Cell × Int)) : AI :=
  calls.foldl (fun ai p => add_knowledge fuel ai p.1 p.2) (initAI height width)

/-- The candidate set of `make_random_move`: the cells `(r, c)` for
`r in range(self.width)` and `c in range(self.height)` — exactly as in the
source, where the two ranges are taken in this order — minus `moves_made`
and `mines`. -/
def availableCells (ai : AI) : Finset Cell :=
  (((Finset.Icc 0 (ai.width - 1)) ×ˢ (Finset.Icc 0 (ai.height - 1))) \
    ai.moves_made) \ ai.mines

/-- `MinesweeperAI.make_random_move()`: pop an arbitrary element of the
freshly built candidate set if non-empty, else `None`.  `pick` stands for
`set.pop`'s unspecified choice; the returned `AI` is the state the method
leaves behind (it assigns none of the `self` fields). -/
def make_random_move (ai : AI)
    (pick : (s : Finset Cell) → s.Nonempty → Cell) : Option Cell × AI :=
  let available := availableCells ai
  if h : available.Nonempty then (some (pick available h), ai) else (none, ai)

/-- `MinesweeperAI.make_safe_move()`: pop an arbitrary element of
`self.safes - self.moves_made` if non-empty, else `None`; no `self` field is
assigned. -/
def make_safe_move (ai : AI)
    (pick : (s : Finset Cell) → s.Nonempty → Cell) : Option Cell × AI :=
  let safes := ai.safes \ ai.moves_made
  if h : safes.Nonempty then (some (pick safes h), ai) else (none, ai)

/-- The cells of the `height × width` grid (rows `0..height-1`, columns
`0..width-1`), as the spec describes the board. -/
def boardCells (height width : Int) : Finset Cell :=
  (Finset.Icc 0 (height - 1)) ×ˢ (Finset.Icc 0 (width - 1))

/-- A call list is accurate for the mine set `M` on an `h × w` grid when every
probed cell is not a mine and every reported count is the number of mines
among the cell's in-bounds neighbours — the protocol of the board oracle. -/
def Accurate (M : Finset Cell) (h w : Int) (calls : List (Cell × Int)) : Prop :=
  ∀ p ∈ calls, p.1 ∉ M ∧ p.2 = (((neighbors h w p.1) ∩ M).card : Int)

/-- A sentence is sound for mine set `M` when its count is exactly the number
of its cells that are mines of `M`. -/
def Sentence.Sound (M : Finset Cell) (s : Sentence) : Prop :=
  ((s.cells ∩ M).card : Int) = s.count

/-- The knowledge-base invariant maintained by accurate play: marked mines
are mines of `M`, marked safes are not, every sentence is sound, and no
sentence mentions an already-resolved (marked) cell or an off-board cell. -/
structure InvAI (M : Finset Cell) (ai : AI) : Prop where
  mines_sub : ai.mines ⊆ M
  safes_out : ∀ c ∈ ai.safes, c ∉ M
  sound : ∀ s ∈ ai.knowledge, s.Sound M
  minefree : ∀ s ∈ ai.knowledge, ∀ c ∈ s.cells, c ∉ ai.mines
  safefree : ∀ s ∈ ai.knowledge, ∀ c ∈ s.cells, c ∉ ai.safes
  ongrid : ∀ s ∈ ai.knowledge, s.cells ⊆ boardCells ai.height ai.width

/-- The state reached after `n` further passes of the loop body. -/
def passIter (n : Nat) (ai : AI) : AI :=
  (fun t => (loopStep t).1)^[n] ai

/-- The `while kb_updated` loop, started at state `ai`, terminates: some pass
reports no change. -/
def loopTerminates (ai : AI) : Prop :=
  ∃ n, (loopStep (passIter n ai)).2 = false

/-- A concrete choice function standing in for `set.pop`: the least element in
the `cellLE` order (via the head of the sorted enumeration). -/
def pickSorted (s : Finset Cell) (_ : s.Nonempty) : Cell :=
  (enumCells s).headI

/-! ## Concrete states used by the claim theorems -/

/-- A knowledge base holding exactly the two sentences `{A,B,C} = 1` and
`{A,B} = 1` of the subset-inference scenario, with `A = (0,0)`, `B = (0,1)`,
`C = (0,2)` on a 1×3 grid and no cells resolved yet. -/
def subsetScenario : AI :=
  ⟨1, 3, ∅, ∅, ∅,
    [⟨{((0:Int),(0:Int)), (0,1), (0,2)}, 1⟩, ⟨{((0:Int),(0:Int)), (0,1)}, 1⟩]⟩

/-- A knowledge base on a 1×3 grid whose only two unresolved neighbours of
`(0,1)` — namely `(0,0)` and `(0,2)` — are already known mines (the
empty-sentence scenario of the spec). -/
def emptySentenceScenario : AI :=
  ⟨1, 3, ∅, {((0:Int),(0:Int)), (0,2)}, ∅, []⟩

/-- The two cells of the diverging knowledge base. -/
def cellA : Cell := (0, 1)

/-- The second cell of the diverging knowledge base. -/
def cellB : Cell := (1, 1)

/-- A 2×2 knowledge base holding the inconsistent sentences
`{A,B} = 4`, `{A,B} = 1` and `{A} = 2`: every sentence is inert
(no `known_mines`/`known_safes` ever fires) but the subset-inference rule
keeps deriving singleton sentences with ever larger and smaller counts. -/
def seedAI : AI :=
  ⟨2, 2, ∅, ∅, ∅, [⟨{cellA, cellB}, 4⟩, ⟨{cellA, cellB}, 1⟩, ⟨{cellA}, 2⟩]⟩

/-- The invariant of the diverging run: the marked-mine set is empty, the two
pair sentences are present, every sentence is either a pair sentence with
count 4 or 1 or a singleton sentence with count ≡ 2 (mod 3), some `{A}`
sentence attains the maximal `{A}`-count and some `{B}` sentence the minimal
`{B}`-count. -/
structure DivState (ai : AI) : Prop where
  mines_empty : ai.mines = ∅
  seed4 : (⟨{cellA, cellB}, 4⟩ : Sentence) ∈ ai.knowledge
  seed1 : (⟨{cellA, cellB}, 1⟩ : Sentence) ∈ ai.knowledge
  shape : ∀ s ∈ ai.knowledge,
    (s.cells = {cellA, cellB} ∧ (s.count = 4 ∨ s.count = 1)) ∨
      ((s.cells = {cellA} ∨ s.cells = {cellB}) ∧ s.count % 3 = 2)
  amax : ∃ α, (⟨{cellA}, α⟩ : Sentence) ∈ ai.knowledge ∧
    ∀ s ∈ ai.knowledge, s.cells = {cellA} → s.count ≤ α
  bmin : ∃ β, (⟨{cellB}, β⟩ : Sentence) ∈ ai.knowledge ∧
    ∀ s ∈ ai.knowledge, s.cells = {cellB} → β ≤ s.count

/-- The state after the observation `add_knowledge((9,9), 0)` on `seedAI` and
one pass of the loop (the pass drops the empty observation sentence and adds
the first two singleton inferences). -/
def seedAfterPass : AI :=
  ⟨2, 2, {((9:Int),(9:Int))}, ∅, {((9:Int),(9:Int))},
    [⟨{cellA, cellB}, 4⟩, ⟨{cellA, cellB}, 1⟩, ⟨{cellA}, 2⟩, ⟨{cellB}, 2⟩, ⟨{cellB}, -1⟩]⟩

/-- The termination measure: how many board cells are still unmarked
(weighted), plus how many distinct sentence values can still be added. -/
def measureAI (ai : AI) : Nat :=
  ((boardCells ai.height ai.width).card -
      ((ai.mines ∪ ai.safes) ∩ boardCells ai.height ai.width).card) *
    (2 ^ (boardCells ai.height ai.width).card + 1) +
  (2 ^ (boardCells ai.height ai.width).card - ai.knowledge.toFinset.card)


/-! ## Basic facts about the enumeration and the selection function -/

theorem mem_enumCells {s : Finset Cell} {c : Cell} : c ∈ enumCells s ↔ c ∈ s := by
  rcases s with ⟨m, nd⟩
  induction m using Quot.inductionOn with
  | _ l =>
    simp [enumCells, Finset.mem_def, (List.perm_insertionSort cellLE l).mem_iff]

theorem enumCells_ne_nil {s : Finset Cell} (h : s.Nonempty) : enumCells s ≠ [] := by
  obtain ⟨c, hc⟩ := h
  intro hnil
  rw [← mem_enumCells] at hc
  simp [hnil] at hc

theorem pickSorted_mem (s : Finset Cell) (h : s.Nonempty) : pickSorted s h ∈ s := by
  have hne := enumCells_ne_nil h
  rw [← mem_enumCells]
  unfold pickSorted
  cases hl : enumCells s with
  | nil => exact absurd hl hne
  | cons c tl => exact List.mem_cons_self _ _

/-! ## C8 -/

/-- C8 counterexample: on a fresh 1×3 grid, after `add_knowledge((0,0), 0)`
the cell `(0,2)` is NOT in `safes` — `(0,2)` is not a neighbour of `(0,0)`,
so the claim that both `(0,1)` and `(0,2)` end up safe is false. -/
theorem probe_corner_does_not_safe_far_cell :
    ((0:Int), (2:Int)) ∉ (add_knowledge 3 (initAI 1 3) (0, 0) 0).safes := by
  decide

/-- C8 amended: on a fresh 1×3 grid, `add_knowledge((0,0), 0)` leaves the
sole neighbour `(0,1)` of the probed corner cell in `safes` (together with
the probed cell itself), while the non-adjacent cell `(0,2)` stays
undetermined; a further pass reports no change. -/
theorem probe_corner_safes_exactly_neighbor :
    (add_knowledge 3 (initAI 1 3) (0, 0) 0).safes = {((0:Int),(0:Int)), (0,1)} ∧
    ((0:Int), (2:Int)) ∉ (add_knowledge 3 (initAI 1 3) (0, 0) 0).safes ∧
    (loopStep (add_knowledge 3 (initAI 1 3) (0, 0) 0)).2 = false := by
  decide

/-! ## C2 -/

/-- C2 counterexample: for the call sequence `add_knowledge((0,0), 2)` then
`add_knowledge((1,0), 0)` on a freshly constructed 2×2 knowledge base, the
cell `(0,1)` ends up in `safes` and in `mines` simultaneously (the second,
inconsistent count makes one sentence fire `known_mines` and its duplicate
cell set fire `known_safes` in the same pass), so `safes ∩ mines = ∅` fails;
the final pass reports no further change. -/
theorem safes_mines_overlap_example :
    (((0:Int),(1:Int)) ∈ (runGame 3 2 2 [(((0:Int),(0:Int)), 2), (((1:Int),(0:Int)), 0)]).safes ∧
      ((0:Int),(1:Int)) ∈ (runGame 3 2 2 [(((0:Int),(0:Int)), 2), (((1:Int),(0:Int)), 0)]).mines) ∧
    (loopStep (runGame 3 2 2 [(((0:Int),(0:Int)), 2), (((1:Int),(0:Int)), 0)])).2 = false := by
  decide

/-! ## C3 -/

/-- C3 counterexample: the single call `add_knowledge((0,1), 5)` on a fresh
1×3 knowledge base leaves the sentence `{(0,0),(0,2)} = 5` in the knowledge
base, whose count `5` exceeds its cell-set size `2`; the next pass reports no
change, so the sentence is retained at rest. -/
theorem count_exceeds_cells_example :
    (⟨{((0:Int),(0:Int)), (0,2)}, 5⟩ : Sentence) ∈
      (runGame 2 1 3 [(((0:Int),(1:Int)), 5)]).knowledge ∧
    ¬ ((5:Int) ≤ (({((0:Int),(0:Int)), (0,2)} : Finset Cell).card : Int)) ∧
    (loopStep (runGame 2 1 3 [(((0:Int),(1:Int)), 5)])).2 = false := by
  decide

/-! ## C5 -/

/-- C5 counterexample: probing `(0,1)` (whose only two unresolved neighbours
`(0,0)`, `(0,2)` are already known mines) with count 2 makes the observation
phase of `add_knowledge` insert the empty-cells sentence `∅ = 0` into the
knowledge list — the insertion guard checks only for an equal existing
sentence, not for emptiness. -/
theorem empty_sentence_is_inserted :
    (⟨∅, 0⟩ : Sentence) ∈ (addObservation emptySentenceScenario (0, 1) 2).knowledge := by
  decide

/-! ## Structure of the inference collection -/

theorem mem_inferStep {kb : List Sentence} {s1 : Sentence} {acc : List Sentence}
    {s2 x : Sentence} (hx : x ∈ inferStep kb s1 acc s2) :
    x ∈ acc ∨ ((s1.cells ≠ s2.cells ∧ s2.cells ⊆ s1.cells) ∧
      x = mkInference s1 s2 ∧ x ∉ kb) := by
  unfold inferStep at hx
  split_ifs at hx with hcond hguard
  · rcases List.mem_append.mp hx with h | h
    · exact Or.inl h
    · refine Or.inr ⟨hcond, List.mem_singleton.mp h, ?_⟩
      rw [List.mem_singleton.mp h]
      exact hguard.1
  · exact Or.inl hx
  · exact Or.inl hx

theorem mem_inferStep_of_mem {kb : List Sentence} {s1 : Sentence} {acc : List Sentence}
    {s2 x : Sentence} (hx : x ∈ acc) : x ∈ inferStep kb s1 acc s2 := by
  unfold inferStep
  split_ifs
  · exact List.mem_append_left _ hx
  · exact hx
  · exact hx

theorem inferStep_adds {kb : List Sentence} {s1 : Sentence} {acc : List Sentence}
    {s2 : Sentence} (hne : s1.cells ≠ s2.cells) (hsub : s2.cells ⊆ s1.cells)
    (hk : mkInference s1 s2 ∉ kb) : mkInference s1 s2 ∈ inferStep kb s1 acc s2 := by
  unfold inferStep
  rw [if_pos ⟨hne, hsub⟩]
  by_cases ha : mkInference s1 s2 ∈ acc
  · rw [if_neg (by simp [ha])]
    exact ha
  · rw [if_pos ⟨hk, ha⟩]
    exact List.mem_append_right _ (List.mem_singleton.mpr rfl)

theorem mem_of_mem_inferInner {kb : List Sentence} {s1 : Sentence} {l acc : List Sentence}
    {x : Sentence} (hx : x ∈ acc) : x ∈ l.foldl (inferStep kb s1) acc := by
  induction l generalizing acc with
  | nil => exact hx
  | cons s2 tl ih => exact ih (mem_inferStep_of_mem hx)

theorem mem_inferInner {kb : List Sentence} {s1 : Sentence} {l acc : List Sentence}
    {x : Sentence} (hx : x ∈ l.foldl (inferStep kb s1) acc) :
    x ∈ acc ∨ ∃ s2 ∈ l, (s1.cells ≠ s2.cells ∧ s2.cells ⊆ s1.cells) ∧
      x = mkInference s1 s2 ∧ x ∉ kb := by
  induction l generalizing acc with
  | nil => exact Or.inl hx
  | cons s2 tl ih =>
    rcases ih hx with h | ⟨t, ht, hc, he, hk⟩
    · rcases mem_inferStep h with h | ⟨hc, he, hk⟩
      · exact Or.inl h
      · exact Or.inr ⟨s2, List.mem_cons_self _ _, hc, he, hk⟩
    · exact Or.inr ⟨t, List.mem_cons_of_mem _ ht, hc, he, hk⟩

theorem inferInner_complete {kb : List Sentence} {s1 : Sentence} {l acc : List Sentence}
    {s2 : Sentence} (h2 : s2 ∈ l) (hne : s1.cells ≠ s2.cells) (hsub : s2.cells ⊆ s1.cells)
    (hk : mkInference s1 s2 ∉ kb) :
    mkInference s1 s2 ∈ l.foldl (inferStep kb s1) acc := by
  induction l generalizing acc with
  | nil => cases h2
  | cons hd tl ih =>
    rcases List.mem_cons.mp h2 with rfl | h2
    · show mkInference s1 s2 ∈ List.foldl (inferStep kb s1) (inferStep kb s1 acc s2) tl
      exact mem_of_mem_inferInner (inferStep_adds hne hsub hk)
    · exact ih h2

theorem mem_of_mem_inferOuter {kb : List Sentence} {l acc : List Sentence}
    {x : Sentence} (hx : x ∈ acc) :
    x ∈ l.foldl (fun acc1 s1 => kb.foldl (inferStep kb s1) acc1) acc := by
  induction l generalizing acc with
  | nil => exact hx
  | cons s1 tl ih => exact ih (mem_of_mem_inferInner hx)

/-- Every collected inference comes from an ordered pair of sentences of the
knowledge list whose cell sets are distinct and nested, and is itself not in
the knowledge list. -/
theorem mem_inferencesFor {kb : List Sentence} {x : Sentence}
    (hx : x ∈ inferencesFor kb) :
    ∃ s1 ∈ kb, ∃ s2 ∈ kb, (s1.cells ≠ s2.cells ∧ s2.cells ⊆ s1.cells) ∧
      x = mkInference s1 s2 ∧ x ∉ kb := by
  unfold inferencesFor at hx
  suffices h : ∀ (l acc : List Sentence),
      x ∈ l.foldl (fun acc1 s1 => kb.foldl (inferStep kb s1) acc1) acc →
      x ∈ acc ∨ ∃ s1 ∈ l, ∃ s2 ∈ kb, (s1.cells ≠ s2.cells ∧ s2.cells ⊆ s1.cells) ∧
        x = mkInference s1 s2 ∧ x ∉ kb by
    rcases h kb [] hx with h | ⟨s1, h1, s2, h2, hc, he, hk⟩
    · cases h
    · exact ⟨s1, h1, s2, h2, hc, he, hk⟩
  intro l
  induction l with
  | nil => intro acc h; exact Or.inl h
  | cons s1 tl ih =>
    intro acc h
    rcases ih _ h with h | ⟨t1, ht1, t2, ht2, hc, he, hk⟩
    · rcases mem_inferInner h with h | ⟨s2, h2, hc, he, hk⟩
      · exact Or.inl h
      · exact Or.inr ⟨s1, List.mem_cons_self _ _, s2, h2, hc, he, hk⟩
    · exact Or.inr ⟨t1, List.mem_cons_of_mem _ ht1, t2, ht2, hc, he, hk⟩

/-- Conversely, for every ordered pair of sentences of the knowledge list with
distinct nested cell sets, the inferred sentence is either already in the
knowledge list or ends up among the collected inferences. -/
theorem inferencesFor_complete {kb : List Sentence} {s1 s2 : Sentence}
    (h1 : s1 ∈ kb) (h2 : s2 ∈ kb) (hne : s1.cells ≠ s2.cells)
    (hsub : s2.cells ⊆ s1.cells) :
    mkInference s1 s2 ∈ kb ∨ mkInference s1 s2 ∈ inferencesFor kb := by
  by_cases hk : mkInference s1 s2 ∈ kb
  · exact Or.inl hk
  refine Or.inr ?_
  unfold inferencesFor
  suffices h : ∀ (l acc : List Sentence), s1 ∈ l →
      mkInference s1 s2 ∈ l.foldl (fun acc1 t1 => kb.foldl (inferStep kb t1) acc1) acc from
    h kb [] h1
  intro l
  induction l with
  | nil => intro acc h; cases h
  | cons hd tl ih =>
    intro acc hmem
    rcases List.mem_cons.mp hmem with rfl | hmem
    · show mkInference s1 s2 ∈
        List.foldl (fun acc1 t1 => kb.foldl (inferStep kb t1) acc1)
          (kb.foldl (inferStep kb s1) acc) tl
      exact mem_of_mem_inferOuter (inferInner_complete h2 hne hsub hk)
    · exact ih _ hmem


/-! ## Structure of the marking phase -/

theorem foldl_mark_mine_fields (l : List Cell) (ai : AI) :
    (l.foldl AI.mark_mine ai).height = ai.height ∧
    (l.foldl AI.mark_mine ai).width = ai.width ∧
    (l.foldl AI.mark_mine ai).moves_made = ai.moves_made ∧
    (l.foldl AI.mark_mine ai).safes = ai.safes ∧
    (l.foldl AI.mark_mine ai).mines = ai.mines ∪ l.toFinset := by
  induction l generalizing ai with
  | nil => simp
  | cons c tl ih =>
    obtain ⟨h1, h2, h3, h4, h5⟩ := ih (ai.mark_mine c)
    refine ⟨?_, ?_, ?_, ?_, ?_⟩ <;> rw [List.foldl_cons]
    · exact h1
    · exact h2
    · exact h3
    · exact h4
    · rw [h5]
      show insert c ai.mines ∪ tl.toFinset = ai.mines ∪ (c :: tl).toFinset
      simp [Finset.insert_union, Finset.union_insert]

theorem foldl_mark_safe_fields (l : List Cell) (ai : AI) :
    (l.foldl AI.mark_safe ai).height = ai.height ∧
    (l.foldl AI.mark_safe ai).width = ai.width ∧
    (l.foldl AI.mark_safe ai).moves_made = ai.moves_made ∧
    (l.foldl AI.mark_safe ai).mines = ai.mines ∧
    (l.foldl AI.mark_safe ai).safes = ai.safes ∪ l.toFinset := by
  induction l generalizing ai with
  | nil => simp
  | cons c tl ih =>
    obtain ⟨h1, h2, h3, h4, h5⟩ := ih (ai.mark_safe c)
    refine ⟨?_, ?_, ?_, ?_, ?_⟩ <;> rw [List.foldl_cons]
    · exact h1
    · exact h2
    · exact h3
    · exact h4
    · rw [h5]
      show insert c ai.safes ∪ tl.toFinset = ai.safes ∪ (c :: tl).toFinset
      simp [Finset.insert_union, Finset.union_insert]

theorem foldl_mark_mine_knowledge (l : List Cell) (ai : AI) :
    (l.foldl AI.mark_mine ai).knowledge =
      ai.knowledge.map (fun s => l.foldl Sentence.mark_mine s) := by
  induction l generalizing ai with
  | nil => simp
  | cons c tl ih =>
    show (tl.foldl AI.mark_mine (ai.mark_mine c)).knowledge = _
    rw [ih]
    show (ai.knowledge.map (·.mark_mine c)).map _ = _
    rw [List.map_map]
    rfl

theorem foldl_mark_safe_knowledge (l : List Cell) (ai : AI) :
    (l.foldl AI.mark_safe ai).knowledge =
      ai.knowledge.map (fun s => l.foldl Sentence.mark_safe s) := by
  induction l generalizing ai with
  | nil => simp
  | cons c tl ih =>
    show (tl.foldl AI.mark_safe (ai.mark_safe c)).knowledge = _
    rw [ih]
    show (ai.knowledge.map (·.mark_safe c)).map _ = _
    rw [List.map_map]
    rfl

/-- The first component of a pass, by definition: the marked state's
sentences with empty ones dropped, extended with this pass's inferences. -/
theorem loopStep_fst_knowledge (ai : AI) :
    (loopStep ai).1.knowledge =
      (applyMarks ai).knowledge.filter (fun s => s.cells.Nonempty) ++
        inferencesFor ((applyMarks ai).knowledge.filter (fun s => s.cells.Nonempty)) :=
  rfl

theorem loopStep_fst_fields (ai : AI) :
    (loopStep ai).1.height = (applyMarks ai).height ∧
    (loopStep ai).1.width = (applyMarks ai).width ∧
    (loopStep ai).1.moves_made = (applyMarks ai).moves_made ∧
    (loopStep ai).1.mines = (applyMarks ai).mines ∧
    (loopStep ai).1.safes = (applyMarks ai).safes :=
  ⟨rfl, rfl, rfl, rfl, rfl⟩

/-! ## No empty sentence survives a pass (C5 machinery) -/

theorem inferencesFor_cells_nonempty {kb : List Sentence} {x : Sentence}
    (hx : x ∈ inferencesFor kb) : x.cells.Nonempty := by
  obtain ⟨s1, _, s2, _, ⟨hne, hsub⟩, he, _⟩ := mem_inferencesFor hx
  rw [he]
  exact Finset.sdiff_nonempty.mpr (fun h => hne (Finset.Subset.antisymm h hsub))

theorem loopStep_cells_nonempty (ai : AI) :
    ∀ s ∈ (loopStep ai).1.knowledge, s.cells.Nonempty := by
  intro s hs
  rw [loopStep_fst_knowledge] at hs
  rcases List.mem_append.mp hs with h | h
  · exact of_decide_eq_true (List.mem_filter.mp h).2
  · exact inferencesFor_cells_nonempty h

theorem runLoop_cells_nonempty (fuel : Nat) (ai : AI) (hfuel : 1 ≤ fuel) :
    ∀ s ∈ (runLoop fuel ai).knowledge, s.cells.Nonempty := by
  induction fuel generalizing ai with
  | zero => cases hfuel
  | succ n ih =>
    show ∀ s ∈ (if (loopStep ai).2 then runLoop n (loopStep ai).1 else (loopStep ai).1).knowledge,
      s.cells.Nonempty
    split
    · cases n with
      | zero => exact loopStep_cells_nonempty ai
      | succ m => exact ih (loopStep ai).1 (Nat.succ_le_succ (Nat.zero_le m))
    · exact loopStep_cells_nonempty ai

/-! ## C5 (amended part) -/

/-- C5 amended: the observation phase of `add_knowledge` inserts the new
sentence whenever no equal sentence exists — even when its cell set is empty
(see `empty_sentence_is_inserted`) — but the first pass of the inference
fixpoint drops every empty-cells sentence and all later passes only produce
sentences with non-empty cells, so when `add_knowledge` returns (any fuel
covering at least one pass) no empty-cells sentence is retained in the
knowledge base. -/
theorem add_knowledge_no_empty_sentence (fuel : Nat) (ai : AI) (cell : Cell)
    (count : Int) (hfuel : 1 ≤ fuel) :
    ∀ s ∈ (add_knowledge fuel ai cell count).knowledge, s.cells.Nonempty :=
  runLoop_cells_nonempty fuel (addObservation ai cell count) hfuel

theorem add_knowledge_no_empty_sentence_witness :
    (1 ≤ 1) ∧
      ∀ s ∈ (add_knowledge 1 emptySentenceScenario (0, 1) 2).knowledge, s.cells.Nonempty :=
  ⟨by decide, add_knowledge_no_empty_sentence 1 emptySentenceScenario (0, 1) 2 (by decide)⟩

/-! ## C7 -/

/-- C7: whenever `safes − moves_made` is non-empty, `make_safe_move` returns
some element of that set; every returned cell lies in `safes` and not in
`moves_made` (so never a cell already played); it returns `None` when
`safes ⊆ moves_made`; and it does not mutate any state — the returned state
equals the input state, for every choice function modelling `set.pop`. -/
theorem make_safe_move_spec (ai : AI)
    (pick : (s : Finset Cell) → s.Nonempty → Cell)
    (hpick : ∀ s h, pick s h ∈ s) :
    ((ai.safes \ ai.moves_made).Nonempty →
      ∃ c ∈ ai.safes \ ai.moves_made, (make_safe_move ai pick).1 = some c) ∧
    (∀ c, (make_safe_move ai pick).1 = some c → c ∈ ai.safes ∧ c ∉ ai.moves_made) ∧
    (ai.safes ⊆ ai.moves_made → (make_safe_move ai pick).1 = none) ∧
    (make_safe_move ai pick).2 = ai := by
  unfold make_safe_move
  refine ⟨?_, ?_, ?_, ?_⟩
  · intro h
    refine ⟨pick (ai.safes \ ai.moves_made) h, hpick _ h, ?_⟩
    rw [dif_pos h]
  · intro c hc
    by_cases h : (ai.safes \ ai.moves_made).Nonempty
    · rw [dif_pos h] at hc
      have := hpick _ h
      rw [← Option.some.injEq c _ |>.mp hc.symm] at this
      exact Finset.mem_sdiff.mp this
    · rw [dif_neg h] at hc
      cases hc
  · intro hsub
    have h : ai.safes \ ai.moves_made = ∅ := Finset.sdiff_eq_empty_iff_subset.mpr hsub
    rw [dif_neg]
    rw [h]
    exact Finset.not_nonempty_empty
  · by_cases h : (ai.safes \ ai.moves_made).Nonempty
    · rw [dif_pos h]
    · rw [dif_neg h]

theorem make_safe_move_spec_witness :
    ((({((0:Int),(0:Int)), (0,1)} : Finset Cell) \ {((0:Int),(0:Int))}).Nonempty →
      ∃ c ∈ ({((0:Int),(0:Int)), (0,1)} : Finset Cell) \ {((0:Int),(0:Int))},
        (make_safe_move ⟨2, 2, {((0:Int),(0:Int))}, ∅, {((0:Int),(0:Int)), (0,1)}, []⟩ pickSorted).1 = some c) ∧
    (∀ c, (make_safe_move ⟨2, 2, {((0:Int),(0:Int))}, ∅, {((0:Int),(0:Int)), (0,1)}, []⟩ pickSorted).1 = some c →
        c ∈ ({((0:Int),(0:Int)), (0,1)} : Finset Cell) ∧ c ∉ ({((0:Int),(0:Int))} : Finset Cell)) ∧
    (({((0:Int),(0:Int)), (0,1)} : Finset Cell) ⊆ {((0:Int),(0:Int))} →
      (make_safe_move ⟨2, 2, {((0:Int),(0:Int))}, ∅, {((0:Int),(0:Int)), (0,1)}, []⟩ pickSorted).1 = none) ∧
    (make_safe_move ⟨2, 2, {((0:Int),(0:Int))}, ∅, {((0:Int),(0:Int)), (0,1)}, []⟩ pickSorted).2 =
      ⟨2, 2, {((0:Int),(0:Int))}, ∅, {((0:Int),(0:Int)), (0,1)}, []⟩ :=
  make_safe_move_spec ⟨2, 2, {((0:Int),(0:Int))}, ∅, {((0:Int),(0:Int)), (0,1)}, []⟩
    pickSorted pickSorted_mem

/-! ## C10 -/

/-- C10: `make_random_move` does not mutate any knowledge-base state: the
candidate set it pops from is a freshly built local set, so the state the
method leaves behind equals the input state — `moves_made`, `safes`, `mines`
and `knowledge` are all unchanged — for every choice function. -/
theorem make_random_move_pure (ai : AI)
    (pick : (s : Finset Cell) → s.Nonempty → Cell) :
    (make_random_move ai pick).2 = ai := by
  unfold make_random_move
  by_cases h : (availableCells ai).Nonempty
  · rw [dif_pos h]
  · rw [dif_neg h]

/-! ## C6 -/

/-- C6: `make_random_move` builds its candidate set with `range(self.width)`
for the first coordinate and `range(self.height)` for the second — the two
dimensions are swapped — so on the 1×2 grid, after the single accurate call
`add_knowledge((0,0), 1)` (the neighbour `(0,1)` is a mine), the candidate
set is exactly `{(1,0)}` and the method returns the cell `(1,0)`, which lies
outside the grid (row 1 of a height-1 board): the claim that it only ever
picks a grid cell not in `moves_made ∪ mines` fails. -/
theorem make_random_move_returns_off_grid_cell :
    availableCells (add_knowledge 3 (initAI 1 2) (0, 0) 1) = {((1:Int),(0:Int))} ∧
    (make_random_move (add_knowledge 3 (initAI 1 2) (0, 0) 1) pickSorted).1 = some (1, 0) ∧
    ((1:Int),(0:Int)) ∉ boardCells 1 2 := by
  decide

/-! ## C9 -/

theorem known_mines_of_empty (c : Int) : Sentence.known_mines ⟨∅, c⟩ = ∅ := by
  unfold Sentence.known_mines
  split <;> rfl

theorem known_safes_of_empty (c : Int) : Sentence.known_safes ⟨∅, c⟩ = ∅ := by
  unfold Sentence.known_safes
  rw [if_neg]
  rintro ⟨-, h⟩
  exact Finset.not_nonempty_empty h

theorem enumCells_empty : enumCells ∅ = [] := rfl

theorem knownMinesStep_empty_sentence (acc : Finset Cell) (c : Int) :
    knownMinesStep acc ⟨∅, c⟩ = acc := by
  unfold knownMinesStep
  rw [known_mines_of_empty, if_neg Finset.not_nonempty_empty]

theorem knownSafesStep_empty_sentence (acc : Finset Cell) (c : Int) :
    knownSafesStep acc ⟨∅, c⟩ = acc := by
  unfold knownSafesStep
  rw [known_mines_of_empty, if_neg Finset.not_nonempty_empty, known_safes_of_empty,
    if_neg Finset.not_nonempty_empty]

/-- C9 counterexample: calling `add_knowledge` with the cell `(9,9)`,
outside the 1×3 grid, does not fail: the call returns normally, recording
the off-grid cell as a move made and as safe (all of the cell's candidate
neighbours are filtered out by the bounds check, and the resulting empty
sentence is dropped by the first pass) — the protocol violation is silently
tolerated rather than reported. -/
theorem out_of_grid_probe_returns_normally :
    add_knowledge 2 (initAI 1 3) (9, 9) 0 =
      ⟨1, 3, {((9:Int),(9:Int))}, ∅, {((9:Int),(9:Int))}, []⟩ := by
  decide

/-- C9 amended: for every reported count, calling `add_knowledge` on a fresh
1×3 knowledge base with the out-of-grid cell `(9,9)` is silently tolerated:
the call completes normally, adds the cell to `moves_made` and `safes`,
records no mines, and retains no sentence. -/
theorem out_of_grid_probe_silently_tolerated (count : Int) :
    add_knowledge 2 (initAI 1 3) (9, 9) count =
      ⟨1, 3, {((9:Int),(9:Int))}, ∅, {((9:Int),(9:Int))}, []⟩ := by
  have hn : neighbors 1 3 (9, 9) = ∅ := by decide
  simp only [add_knowledge, addObservation, initAI, AI.mark_safe, List.map_nil, hn,
    Finset.empty_sdiff, Finset.empty_inter, Finset.card_empty, Int.natCast_zero, sub_zero,
    List.not_mem_nil, if_false, List.nil_append, runLoop, loopStep, applyMarks,
    purgeKnowledge, List.map_cons, known_mines_of_empty, known_safes_of_empty,
    passKnownMines, passKnownSafes, passFlag, knownMinesStep_empty_sentence,
    knownSafesStep_empty_sentence, List.foldl_cons, List.foldl_nil,
    Finset.not_nonempty_empty, enumCells_empty, List.any_cons, List.any_nil,
    List.filter_cons, List.filter_nil, inferencesFor, List.isEmpty_nil]
  simp

/-! ## Soundness of sentences under accurate counts (C2/C3 machinery) -/

theorem sound_mark_mine {M : Finset Cell} {s : Sentence} (hs : s.Sound M)
    {c : Cell} (hc : c ∈ M) : (s.mark_mine c).Sound M := by
  unfold Sentence.mark_mine
  by_cases h : c ∈ s.cells
  · rw [if_pos h]
    have hm : c ∈ s.cells ∩ M := Finset.mem_inter.mpr ⟨h, hc⟩
    have hset : s.cells.erase c ∩ M = (s.cells ∩ M).erase c := by
      ext x
      simp only [Finset.mem_erase, Finset.mem_inter]
      tauto
    show ((s.cells.erase c ∩ M).card : Int) = s.count - 1
    rw [hset, Finset.card_erase_of_mem hm,
      Nat.cast_sub (Nat.one_le_iff_ne_zero.mpr (Finset.card_ne_zero_of_mem hm)), hs]
    simp
  · rw [if_neg h]
    exact hs

theorem sound_mark_safe {M : Finset Cell} {s : Sentence} (hs : s.Sound M)
    {c : Cell} (hc : c ∉ M) : (s.mark_safe c).Sound M := by
  unfold Sentence.mark_safe
  by_cases h : c ∈ s.cells
  · rw [if_pos h]
    have hset : s.cells.erase c ∩ M = s.cells ∩ M := by
      ext x
      simp only [Finset.mem_erase, Finset.mem_inter]
      constructor
      · tauto
      · rintro ⟨hx, hM⟩
        exact ⟨⟨fun hxc => hc (by rwa [hxc] at hM), hx⟩, hM⟩
    show ((s.cells.erase c ∩ M).card : Int) = s.count
    rw [hset, hs]
  · rw [if_neg h]
    exact hs

/-- For a sound sentence, every cell reported by `known_mines()` is a mine
of `M`. -/
theorem Sentence.Sound.known_mines_subset {M : Finset Cell} {s : Sentence}
    (hs : s.Sound M) : s.known_mines ⊆ M := by
  unfold Sentence.known_mines
  split
  · rename_i h
    have hcard : s.cells.card ≤ (s.cells ∩ M).card := by
      have h2 : ((s.cells ∩ M).card : Int) = (s.cells.card : Int) := by rw [hs, h]
      exact_mod_cast le_of_eq h2.symm
    have heq : s.cells ∩ M = s.cells :=
      Finset.eq_of_subset_of_card_le Finset.inter_subset_left hcard
    intro c hc
    have : c ∈ s.cells ∩ M := heq.symm ▸ hc
    exact (Finset.mem_inter.mp this).2
  · exact Finset.empty_subset M

/-- For a sound sentence, no cell reported by `known_safes()` is a mine
of `M`. -/
theorem Sentence.Sound.known_safes_disjoint {M : Finset Cell} {s : Sentence}
    (hs : s.Sound M) : ∀ c ∈ s.known_safes, c ∉ M := by
  unfold Sentence.known_safes
  split
  · rename_i h
    intro c hc hM
    have hcard : (s.cells ∩ M).card = 0 := by
      have h0 : ((s.cells ∩ M).card : Int) = 0 := by rw [hs, h.1]
      exact_mod_cast h0
    have : s.cells ∩ M = ∅ := Finset.card_eq_zero.mp hcard
    exact Finset.not_mem_empty c (this ▸ Finset.mem_inter.mpr ⟨hc, hM⟩)
  · intro c hc
    exact absurd hc (Finset.not_mem_empty c)

/-- The subset-inference rule preserves soundness. -/
theorem mkInference_sound {M : Finset Cell} {s1 s2 : Sentence}
    (h1 : s1.Sound M) (h2 : s2.Sound M) (hsub : s2.cells ⊆ s1.cells) :
    (mkInference s1 s2).Sound M := by
  have hset : (s1.cells \ s2.cells) ∩ M = (s1.cells ∩ M) \ (s2.cells ∩ M) := by
    ext x
    simp only [Finset.mem_sdiff, Finset.mem_inter]
    constructor
    · tauto
    · rintro ⟨⟨hx1, hM⟩, hx2⟩
      exact ⟨⟨hx1, fun h => hx2 ⟨h, hM⟩⟩, hM⟩
  have hsub2 : s2.cells ∩ M ⊆ s1.cells ∩ M :=
    Finset.inter_subset_inter hsub (Finset.Subset.refl M)
  show (((s1.cells \ s2.cells) ∩ M).card : Int) = s1.count - s2.count
  rw [hset, Finset.card_sdiff hsub2, Nat.cast_sub (Finset.card_le_card hsub2), h1, h2]

/-! ## Invariant preservation through marking -/

theorem invAI_mark_mine {M : Finset Cell} {ai : AI} (inv : InvAI M ai) {c : Cell}
    (hc : c ∈ M) : InvAI M (ai.mark_mine c) := by
  refine ⟨?_, inv.safes_out, ?_, ?_, ?_, ?_⟩
  · exact Finset.insert_subset hc inv.mines_sub
  · intro s' hs'
    obtain ⟨s, hs, rfl⟩ := List.mem_map.mp hs'
    exact sound_mark_mine (inv.sound s hs) hc
  · intro s' hs' x hx
    obtain ⟨s, hs, rfl⟩ := List.mem_map.mp hs'
    unfold Sentence.mark_mine at hx
    show x ∉ insert c ai.mines
    rw [Finset.mem_insert]
    rintro (rfl | hmem)
    · split at hx
      · exact absurd (Finset.mem_erase.mp hx).1 (by simp)
      · rename_i hnot
        exact hnot hx
    · refine inv.minefree s hs x ?_ hmem
      split at hx
      · exact Finset.mem_of_mem_erase hx
      · exact hx
  · intro s' hs' x hx
    obtain ⟨s, hs, rfl⟩ := List.mem_map.mp hs'
    refine inv.safefree s hs x ?_
    unfold Sentence.mark_mine at hx
    split at hx
    · exact Finset.mem_of_mem_erase hx
    · exact hx
  · intro s' hs' x hx
    obtain ⟨s, hs, rfl⟩ := List.mem_map.mp hs'
    refine inv.ongrid s hs ?_
    unfold Sentence.mark_mine at hx
    split at hx
    · exact Finset.mem_of_mem_erase hx
    · exact hx

theorem invAI_mark_safe {M : Finset Cell} {ai : AI} (inv : InvAI M ai) {c : Cell}
    (hc : c ∉ M) : InvAI M (ai.mark_safe c) := by
  refine ⟨inv.mines_sub, ?_, ?_, ?_, ?_, ?_⟩
  · intro x hx
    rcases Finset.mem_insert.mp hx with rfl | hmem
    · exact hc
    · exact inv.safes_out x hmem
  · intro s' hs'
    obtain ⟨s, hs, rfl⟩ := List.mem_map.mp hs'
    exact sound_mark_safe (inv.sound s hs) hc
  · intro s' hs' x hx
    obtain ⟨s, hs, rfl⟩ := List.mem_map.mp hs'
    refine inv.minefree s hs x ?_
    unfold Sentence.mark_safe at hx
    split at hx
    · exact Finset.mem_of_mem_erase hx
    · exact hx
  · intro s' hs' x hx
    obtain ⟨s, hs, rfl⟩ := List.mem_map.mp hs'
    unfold Sentence.mark_safe at hx
    show x ∉ insert c ai.safes
    rw [Finset.mem_insert]
    rintro (rfl | hmem)
    · split at hx
      · exact absurd (Finset.mem_erase.mp hx).1 (by simp)
      · rename_i hnot
        exact hnot hx
    · refine inv.safefree s hs x ?_ hmem
      split at hx
      · exact Finset.mem_of_mem_erase hx
      · exact hx
  · intro s' hs' x hx
    obtain ⟨s, hs, rfl⟩ := List.mem_map.mp hs'
    refine inv.ongrid s hs ?_
    unfold Sentence.mark_safe at hx
    split at hx
    · exact Finset.mem_of_mem_erase hx
    · exact hx

theorem InvAI.foldl_mark_mine {M : Finset Cell} {ai : AI} (inv : InvAI M ai)
    {l : List Cell} (hl : ∀ c ∈ l, c ∈ M) : InvAI M (l.foldl AI.mark_mine ai) := by
  induction l generalizing ai with
  | nil => exact inv
  | cons c tl ih =>
    rw [List.foldl_cons]
    exact ih (invAI_mark_mine inv (hl c (List.mem_cons_self _ _)))
      (fun d hd => hl d (List.mem_cons_of_mem _ hd))

theorem InvAI.foldl_mark_safe {M : Finset Cell} {ai : AI} (inv : InvAI M ai)
    {l : List Cell} (hl : ∀ c ∈ l, c ∉ M) : InvAI M (l.foldl AI.mark_safe ai) := by
  induction l generalizing ai with
  | nil => exact inv
  | cons c tl ih =>
    rw [List.foldl_cons]
    exact ih (invAI_mark_safe inv (hl c (List.mem_cons_self _ _)))
      (fun d hd => hl d (List.mem_cons_of_mem _ hd))

/-! ## The collected known mines/safes of a pass -/

theorem mem_passKnownMines {kb : List Sentence} {c : Cell}
    (hc : c ∈ passKnownMines kb) : ∃ s ∈ kb, c ∈ s.known_mines := by
  unfold passKnownMines at hc
  suffices h : ∀ (l : List Sentence) (acc : Finset Cell),
      c ∈ l.foldl knownMinesStep acc →
      c ∈ acc ∨ ∃ s ∈ l, c ∈ s.known_mines by
    rcases h kb ∅ hc with h | h
    · exact absurd h (Finset.not_mem_empty c)
    · exact h
  intro l
  induction l with
  | nil => intro acc h; exact Or.inl h
  | cons s tl ih =>
    intro acc h
    rcases ih _ h with h | ⟨t, ht, hm⟩
    · unfold knownMinesStep at h
      split at h
      · rcases Finset.mem_union.mp h with h | h
        · exact Or.inl h
        · exact Or.inr ⟨s, List.mem_cons_self _ _, h⟩
      · exact Or.inl h
    · exact Or.inr ⟨t, List.mem_cons_of_mem _ ht, hm⟩

theorem mem_passKnownSafes {kb : List Sentence} {c : Cell}
    (hc : c ∈ passKnownSafes kb) : ∃ s ∈ kb, c ∈ s.known_safes := by
  unfold passKnownSafes at hc
  suffices h : ∀ (l : List Sentence) (acc : Finset Cell),
      c ∈ l.foldl knownSafesStep acc →
      c ∈ acc ∨ ∃ s ∈ l, c ∈ s.known_safes by
    rcases h kb ∅ hc with h | h
    · exact absurd h (Finset.not_mem_empty c)
    · exact h
  intro l
  induction l with
  | nil => intro acc h; exact Or.inl h
  | cons s tl ih =>
    intro acc h
    rcases ih _ h with h | ⟨t, ht, hm⟩
    · unfold knownSafesStep at h
      split at h
      · exact Or.inl h
      · split at h
        · rcases Finset.mem_union.mp h with h | h
          · exact Or.inl h
          · exact Or.inr ⟨s, List.mem_cons_self _ _, h⟩
        · exact Or.inl h
    · exact Or.inr ⟨t, List.mem_cons_of_mem _ ht, hm⟩

/-! ## Invariant preservation through a whole pass -/

theorem purgeKnowledge_eq_self {mines : Finset Cell} {kb : List Sentence}
    (h : ∀ s ∈ kb, ∀ c ∈ s.cells, c ∉ mines) : purgeKnowledge mines kb = kb := by
  unfold purgeKnowledge
  have hid : ∀ s ∈ kb, { s with cells := s.cells \ mines } = s := by
    intro s hs
    have : s.cells \ mines = s.cells := by
      refine Finset.sdiff_eq_self_iff_disjoint.mpr (Finset.disjoint_left.mpr ?_)
      intro c hmem
      exact h s hs c hmem
    rw [this]
  rw [List.map_congr_left hid]
  exact List.map_id kb

theorem applyMarks_invariant {M : Finset Cell} {ai : AI} (inv : InvAI M ai) :
    InvAI M (applyMarks ai) := by
  unfold applyMarks
  rw [purgeKnowledge_eq_self inv.minefree]
  have hself : ({ ai with knowledge := ai.knowledge } : AI) = ai := rfl
  rw [hself]
  have hkm : ∀ c ∈ enumCells (passKnownMines ai.knowledge), c ∈ M := by
    intro c hc
    obtain ⟨s, hs, hm⟩ := mem_passKnownMines (mem_enumCells.mp hc)
    exact (inv.sound s hs).known_mines_subset hm
  have hks : ∀ c ∈ enumCells (passKnownSafes ai.knowledge), c ∉ M := by
    intro c hc
    obtain ⟨s, hs, hm⟩ := mem_passKnownSafes (mem_enumCells.mp hc)
    exact (inv.sound s hs).known_safes_disjoint c hm
  exact (inv.foldl_mark_mine hkm).foldl_mark_safe hks

theorem loopStep_invariant {M : Finset Cell} {ai : AI} (inv : InvAI M ai) :
    InvAI M (loopStep ai).1 := by
  have inv3 : InvAI M (applyMarks ai) := applyMarks_invariant inv
  have hkb4 : ∀ s ∈ (applyMarks ai).knowledge.filter (fun s => s.cells.Nonempty),
      s ∈ (applyMarks ai).knowledge := fun s hs => (List.mem_filter.mp hs).1
  have hfields := loopStep_fst_fields ai
  refine ⟨?_, ?_, ?_, ?_, ?_, ?_⟩
  · rw [hfields.2.2.2.1]
    exact inv3.mines_sub
  · rw [hfields.2.2.2.2]
    exact inv3.safes_out
  · intro s hs
    rw [loopStep_fst_knowledge] at hs
    rcases List.mem_append.mp hs with h | h
    · exact inv3.sound s (hkb4 s h)
    · obtain ⟨s1, h1, s2, h2, ⟨hne, hsub⟩, rfl, -⟩ := mem_inferencesFor h
      exact mkInference_sound (inv3.sound s1 (hkb4 s1 h1)) (inv3.sound s2 (hkb4 s2 h2)) hsub
  · intro s hs x hx
    rw [hfields.2.2.2.1]
    rw [loopStep_fst_knowledge] at hs
    rcases List.mem_append.mp hs with h | h
    · exact inv3.minefree s (hkb4 s h) x hx
    · obtain ⟨s1, h1, s2, h2, ⟨hne, hsub⟩, rfl, -⟩ := mem_inferencesFor h
      exact inv3.minefree s1 (hkb4 s1 h1) x (Finset.mem_sdiff.mp hx).1
  · intro s hs x hx
    rw [hfields.2.2.2.2]
    rw [loopStep_fst_knowledge] at hs
    rcases List.mem_append.mp hs with h | h
    · exact inv3.safefree s (hkb4 s h) x hx
    · obtain ⟨s1, h1, s2, h2, ⟨hne, hsub⟩, rfl, -⟩ := mem_inferencesFor h
      exact inv3.safefree s1 (hkb4 s1 h1) x (Finset.mem_sdiff.mp hx).1
  · intro s hs
    rw [hfields.1, hfields.2.1]
    rw [loopStep_fst_knowledge] at hs
    rcases List.mem_append.mp hs with h | h
    · exact inv3.ongrid s (hkb4 s h)
    · obtain ⟨s1, h1, s2, h2, ⟨hne, hsub⟩, rfl, -⟩ := mem_inferencesFor h
      exact fun x hx => inv3.ongrid s1 (hkb4 s1 h1) (Finset.mem_sdiff.mp hx).1

theorem runLoop_invariant {M : Finset Cell} (fuel : Nat) {ai : AI} (inv : InvAI M ai) :
    InvAI M (runLoop fuel ai) := by
  induction fuel generalizing ai with
  | zero => exact inv
  | succ n ih =>
    show InvAI M (if (loopStep ai).2 then runLoop n (loopStep ai).1 else (loopStep ai).1)
    split
    · exact ih (loopStep_invariant inv)
    · exact loopStep_invariant inv

/-! ## Invariant preservation through the observation phase -/

theorem neighbors_subset_board (height width : Int) (cell : Cell) :
    neighbors height width cell ⊆ boardCells height width := by
  intro p hp
  have hb := (Finset.mem_filter.mp hp).2
  unfold boardCells
  rw [Finset.mem_product, Finset.mem_Icc, Finset.mem_Icc]
  omega

theorem InvAI.append_sentence {M : Finset Cell} {ai : AI} (inv : InvAI M ai)
    {s : Sentence} (h1 : s.Sound M) (h2 : ∀ c ∈ s.cells, c ∉ ai.mines)
    (h3 : ∀ c ∈ s.cells, c ∉ ai.safes)
    (h4 : s.cells ⊆ boardCells ai.height ai.width) :
    InvAI M { ai with knowledge := ai.knowledge ++ [s] } := by
  refine ⟨inv.mines_sub, inv.safes_out, ?_, ?_, ?_, ?_⟩
  · intro t ht
    rcases List.mem_append.mp ht with h | h
    · exact inv.sound t h
    · rw [List.mem_singleton.mp h]
      exact h1
  · intro t ht
    rcases List.mem_append.mp ht with h | h
    · exact inv.minefree t h
    · rw [List.mem_singleton.mp h]
      exact h2
  · intro t ht
    rcases List.mem_append.mp ht with h | h
    · exact inv.safefree t h
    · rw [List.mem_singleton.mp h]
      exact h3
  · intro t ht
    rcases List.mem_append.mp ht with h | h
    · exact inv.ongrid t h
    · rw [List.mem_singleton.mp h]
      exact h4

/-- The observation sentence built by `add_knowledge` is sound when the
reported count is the exact number of mines among the neighbours. -/
theorem observation_sound {M mines safes : Finset Cell} {count : Int}
    (nbrs : Finset Cell) (hmines : mines ⊆ M) (hsafes : ∀ c ∈ safes, c ∉ M)
    (hcount : count = ((nbrs ∩ M).card : Int)) :
    Sentence.Sound M ⟨nbrs \ (mines ∪ safes), count - ((nbrs ∩ mines).card : Int)⟩ := by
  show (((nbrs \ (mines ∪ safes)) ∩ M).card : Int) = count - ((nbrs ∩ mines).card : Int)
  have hset : (nbrs \ (mines ∪ safes)) ∩ M = (nbrs ∩ M) \ (nbrs ∩ mines) := by
    ext x
    simp only [Finset.mem_sdiff, Finset.mem_inter, Finset.mem_union]
    constructor
    · rintro ⟨⟨hn, hns⟩, hM⟩
      exact ⟨⟨hn, hM⟩, fun hc => hns (Or.inl hc.2)⟩
    · rintro ⟨⟨hn, hM⟩, hnm⟩
      refine ⟨⟨hn, ?_⟩, hM⟩
      rintro (hm | hsafe)
      · exact hnm ⟨hn, hm⟩
      · exact hsafes x hsafe hM
  have hsub : nbrs ∩ mines ⊆ nbrs ∩ M :=
    Finset.inter_subset_inter (Finset.Subset.refl nbrs) hmines
  rw [hset, Finset.card_sdiff hsub, Nat.cast_sub (Finset.card_le_card hsub), hcount]

theorem addObservation_invariant {M : Finset Cell} {ai : AI} (inv : InvAI M ai)
    {cell : Cell} {count : Int} (hcell : cell ∉ M)
    (hcount : count = (((neighbors ai.height ai.width cell) ∩ M).card : Int)) :
    InvAI M (addObservation ai cell count) := by
  have inv0 : InvAI M { ai with moves_made := insert cell ai.moves_made } :=
    ⟨inv.mines_sub, inv.safes_out, inv.sound, inv.minefree, inv.safefree, inv.ongrid⟩
  have inv1 := invAI_mark_safe inv0 hcell
  simp only [addObservation]
  split
  · exact inv1
  · refine inv1.append_sentence (observation_sound _ inv1.mines_sub inv1.safes_out hcount)
      ?_ ?_ ?_
    · intro c hc
      exact fun hm => (Finset.mem_sdiff.mp hc).2 (Finset.mem_union_left _ hm)
    · intro c hc
      exact fun hsf => (Finset.mem_sdiff.mp hc).2 (Finset.mem_union_right _ hsf)
    · exact Finset.Subset.trans (Finset.sdiff_subset) (neighbors_subset_board _ _ _)

/-! ## The grid dimensions never change -/

theorem loopStep_height_width (ai : AI) :
    (loopStep ai).1.height = ai.height ∧ (loopStep ai).1.width = ai.width := by
  have h3 := loopStep_fst_fields ai
  unfold applyMarks at h3
  obtain ⟨hm1, hm2, -, -, -⟩ :=
    foldl_mark_safe_fields (enumCells (passKnownSafes ai.knowledge))
      ((enumCells (passKnownMines ai.knowledge)).foldl AI.mark_mine
        { ai with knowledge := purgeKnowledge ai.mines ai.knowledge })
  obtain ⟨hn1, hn2, -, -, -⟩ :=
    foldl_mark_mine_fields (enumCells (passKnownMines ai.knowledge))
      { ai with knowledge := purgeKnowledge ai.mines ai.knowledge }
  exact ⟨by rw [h3.1, hm1, hn1], by rw [h3.2.1, hm2, hn2]⟩

theorem runLoop_height_width (fuel : Nat) (ai : AI) :
    (runLoop fuel ai).height = ai.height ∧ (runLoop fuel ai).width = ai.width := by
  induction fuel generalizing ai with
  | zero => exact ⟨rfl, rfl⟩
  | succ n ih =>
    show (if (loopStep ai).2 then runLoop n (loopStep ai).1 else (loopStep ai).1).height = _ ∧
      (if (loopStep ai).2 then runLoop n (loopStep ai).1 else (loopStep ai).1).width = _
    split
    · obtain ⟨h1, h2⟩ := ih (loopStep ai).1
      obtain ⟨h3, h4⟩ := loopStep_height_width ai
      exact ⟨h1.trans h3, h2.trans h4⟩
    · exact loopStep_height_width ai

theorem addObservation_height_width (ai : AI) (cell : Cell) (count : Int) :
    (addObservation ai cell count).height = ai.height ∧
    (addObservation ai cell count).width = ai.width := by
  simp only [addObservation]
  split
  · exact ⟨rfl, rfl⟩
  · exact ⟨rfl, rfl⟩

theorem add_knowledge_height_width (fuel : Nat) (ai : AI) (cell : Cell) (count : Int) :
    (add_knowledge fuel ai cell count).height = ai.height ∧
    (add_knowledge fuel ai cell count).width = ai.width := by
  obtain ⟨h1, h2⟩ := runLoop_height_width fuel (addObservation ai cell count)
  obtain ⟨h3, h4⟩ := addObservation_height_width ai cell count
  exact ⟨h1.trans h3, h2.trans h4⟩

/-! ## Invariant for a whole accurate game -/

theorem initAI_invariant (M : Finset Cell) (height width : Int) :
    InvAI M (initAI height width) := by
  refine ⟨Finset.empty_subset M, ?_, ?_, ?_, ?_, ?_⟩ <;> simp [initAI]

theorem add_knowledge_invariant {M : Finset Cell} {ai : AI} (inv : InvAI M ai)
    (fuel : Nat) {cell : Cell} {count : Int} (hcell : cell ∉ M)
    (hcount : count = (((neighbors ai.height ai.width cell) ∩ M).card : Int)) :
    InvAI M (add_knowledge fuel ai cell count) :=
  runLoop_invariant fuel (addObservation_invariant inv hcell hcount)

theorem runGame_invariant {M : Finset Cell} (fuel : Nat) (height width : Int)
    {calls : List (Cell × Int)} (hacc : Accurate M height width calls) :
    InvAI M (runGame fuel height width calls) := by
  unfold runGame
  suffices h : ∀ (l : List (Cell × Int)) (ai : AI), InvAI M ai →
      ai.height = height → ai.width = width →
      (∀ p ∈ l, p.1 ∉ M ∧ p.2 = (((neighbors height width p.1) ∩ M).card : Int)) →
      InvAI M (l.foldl (fun ai p => add_knowledge fuel ai p.1 p.2) ai) from
    h calls (initAI height width) (initAI_invariant M height width) rfl rfl hacc
  intro l
  induction l with
  | nil => intro ai inv _ _ _; exact inv
  | cons p tl ih =>
    intro ai inv hh hw hl
    rw [List.foldl_cons]
    obtain ⟨hp1, hp2⟩ := hl p (List.mem_cons_self _ _)
    obtain ⟨hh', hw'⟩ := add_knowledge_height_width fuel ai p.1 p.2
    refine ih _ (add_knowledge_invariant inv fuel hp1 ?_) (hh'.trans hh) (hw'.trans hw)
      (fun q hq => hl q (List.mem_cons_of_mem _ hq))
    rw [hh, hw]
    exact hp2

/-! ## C2 (amended part) -/

/-- C2 amended: after every sequence of `add_knowledge` calls on a freshly
constructed knowledge base whose reported counts are accurate for a fixed
mine set `M` (each probed cell not a mine of `M`, each count the number of
`M`-mines among the probed cell's in-bounds neighbours), the sets `safes`
and `mines` are disjoint when the calls return — marked mines are always
real mines of `M` and marked safes never are.  (For arbitrary, inconsistent
counts the invariant fails: see `safes_mines_overlap_example`.) -/
theorem runGame_safes_mines_disjoint (M : Finset Cell) (fuel : Nat)
    (height width : Int) (calls : List (Cell × Int))
    (hacc : Accurate M height width calls) :
    (runGame fuel height width calls).safes ∩ (runGame fuel height width calls).mines = ∅ := by
  have inv := runGame_invariant fuel height width hacc
  ext c
  simp only [Finset.mem_inter, Finset.not_mem_empty, iff_false, not_and]
  intro hs hm
  exact inv.safes_out c hs (inv.mines_sub hm)

theorem runGame_safes_mines_disjoint_witness :
    Accurate {((0:Int),(1:Int))} 1 2 [(((0:Int),(0:Int)), 1)] ∧
      (runGame 3 1 2 [(((0:Int),(0:Int)), 1)]).safes ∩
        (runGame 3 1 2 [(((0:Int),(0:Int)), 1)]).mines = ∅ :=
  ⟨by unfold Accurate; decide, runGame_safes_mines_disjoint {((0:Int),(1:Int))} 3 1 2
    [(((0:Int),(0:Int)), 1)] (by unfold Accurate; decide)⟩

/-! ## C3 (amended part) -/

/-- C3 amended: after every sequence of `add_knowledge` calls whose reported
counts are accurate for a fixed mine set `M`, every sentence held in the
knowledge base satisfies `0 ≤ count ≤ |cells|`: each sentence's count is
exactly the number of its cells that are mines of `M`.  (For arbitrary
counts the bound fails: see `count_exceeds_cells_example`.) -/
theorem runGame_sentence_count_bounds (M : Finset Cell) (fuel : Nat)
    (height width : Int) (calls : List (Cell × Int))
    (hacc : Accurate M height width calls) :
    ∀ s ∈ (runGame fuel height width calls).knowledge,
      0 ≤ s.count ∧ s.count ≤ (s.cells.card : Int) := by
  intro s hs
  have hsound := (runGame_invariant fuel height width hacc).sound s hs
  constructor
  · rw [← hsound]
    exact Int.natCast_nonneg _
  · rw [← hsound]
    exact_mod_cast Finset.card_le_card Finset.inter_subset_left

theorem runGame_sentence_count_bounds_witness :
    Accurate {((0:Int),(1:Int))} 1 2 [(((0:Int),(0:Int)), 1)] ∧
      ∀ s ∈ (runGame 3 1 2 [(((0:Int),(0:Int)), 1)]).knowledge,
        0 ≤ s.count ∧ s.count ≤ (s.cells.card : Int) :=
  ⟨by unfold Accurate; decide, runGame_sentence_count_bounds {((0:Int),(1:Int))} 3 1 2
    [(((0:Int),(0:Int)), 1)] (by unfold Accurate; decide)⟩

/-! ## Passes that mark nothing -/

theorem known_mines_subset_cells (s : Sentence) : s.known_mines ⊆ s.cells := by
  unfold Sentence.known_mines
  split
  · exact Finset.Subset.refl _
  · exact Finset.empty_subset _

theorem known_safes_subset_cells (s : Sentence) : s.known_safes ⊆ s.cells := by
  unfold Sentence.known_safes
  split
  · exact Finset.Subset.refl _
  · exact Finset.empty_subset _

theorem passKnownMines_eq_empty {kb : List Sentence}
    (h : ∀ s ∈ kb, s.known_mines = ∅) : passKnownMines kb = ∅ := by
  unfold passKnownMines
  suffices hgen : ∀ (l : List Sentence) (acc : Finset Cell), (∀ s ∈ l, s.known_mines = ∅) →
      l.foldl knownMinesStep acc = acc from hgen kb ∅ h
  intro l
  induction l with
  | nil => intro acc _; rfl
  | cons s tl ih =>
    intro acc hl
    rw [List.foldl_cons]
    have hstep : knownMinesStep acc s = acc := by
      unfold knownMinesStep
      rw [hl s (List.mem_cons_self _ _), if_neg Finset.not_nonempty_empty]
    rw [hstep]
    exact ih acc (fun t ht => hl t (List.mem_cons_of_mem _ ht))

theorem passKnownSafes_eq_empty {kb : List Sentence}
    (h : ∀ s ∈ kb, s.known_safes = ∅) : passKnownSafes kb = ∅ := by
  unfold passKnownSafes
  suffices hgen : ∀ (l : List Sentence) (acc : Finset Cell), (∀ s ∈ l, s.known_safes = ∅) →
      l.foldl knownSafesStep acc = acc from hgen kb ∅ h
  intro l
  induction l with
  | nil => intro acc _; rfl
  | cons s tl ih =>
    intro acc hl
    rw [List.foldl_cons]
    have hstep : knownSafesStep acc s = acc := by
      unfold knownSafesStep
      split
      · rfl
      · rw [hl s (List.mem_cons_self _ _), if_neg Finset.not_nonempty_empty]
    rw [hstep]
    exact ih acc (fun t ht => hl t (List.mem_cons_of_mem _ ht))

/-- When the scan finds no known mines and no known safes and no sentence
mentions a marked mine, the marking phase leaves the state unchanged. -/
theorem applyMarks_of_no_marks {ai : AI}
    (hm : ∀ s ∈ ai.knowledge, s.known_mines = ∅)
    (hs : ∀ s ∈ ai.knowledge, s.known_safes = ∅)
    (hp : ∀ s ∈ ai.knowledge, ∀ c ∈ s.cells, c ∉ ai.mines) :
    applyMarks ai = ai := by
  unfold applyMarks
  rw [purgeKnowledge_eq_self hp, passKnownMines_eq_empty hm, passKnownSafes_eq_empty hs,
    enumCells_empty]
  rfl

theorem passFlag_eq_false {mines : Finset Cell} {kb : List Sentence}
    (hm : ∀ s ∈ kb, s.known_mines = ∅) (hs : ∀ s ∈ kb, s.known_safes = ∅)
    (hp : ∀ s ∈ kb, s.cells ∩ mines = ∅) : passFlag mines kb = false := by
  unfold passFlag
  rw [List.any_eq_false]
  intro s hsmem
  rw [hm s hsmem, hs s hsmem, hp s hsmem]
  simp

/-- A pass with no discovered mines/safes and no purge extends the knowledge
list with the pass's inferences and reports a change exactly when there is a
new inference. -/
theorem loopStep_of_no_marks {ai : AI}
    (hm : ∀ s ∈ ai.knowledge, s.known_mines = ∅)
    (hs : ∀ s ∈ ai.knowledge, s.known_safes = ∅)
    (hp : ∀ s ∈ ai.knowledge, ∀ c ∈ s.cells, c ∉ ai.mines)
    (hne : ∀ s ∈ ai.knowledge, s.cells.Nonempty) :
    loopStep ai =
      ({ ai with knowledge := ai.knowledge ++ inferencesFor ai.knowledge },
        !(inferencesFor ai.knowledge).isEmpty) := by
  have hfilter : ai.knowledge.filter (fun s => s.cells.Nonempty) = ai.knowledge :=
    List.filter_eq_self.mpr (fun s hsmem => decide_eq_true (hne s hsmem))
  have hflag : passFlag ai.mines ai.knowledge = false := by
    refine passFlag_eq_false hm hs ?_
    intro s hsmem
    ext c
    simp only [Finset.mem_inter, Finset.not_mem_empty, iff_false, not_and]
    exact hp s hsmem c
  have hmarks : applyMarks ai = ai := applyMarks_of_no_marks hm hs hp
  have hfst : (loopStep ai).1 = { applyMarks ai with knowledge := ((applyMarks ai).knowledge.filter (fun s => s.cells.Nonempty)) ++ inferencesFor ((applyMarks ai).knowledge.filter (fun s => s.cells.Nonempty)) } :=
    rfl
  have hsnd : (loopStep ai).2 = (passFlag ai.mines ai.knowledge || !(inferencesFor ((applyMarks ai).knowledge.filter (fun s => s.cells.Nonempty))).isEmpty) :=
    rfl
  have h1 : (loopStep ai).1 = { ai with knowledge := ai.knowledge ++ inferencesFor ai.knowledge } := by
    rw [hfst, hmarks, hfilter]
  have h2 : (loopStep ai).2 = !(inferencesFor ai.knowledge).isEmpty := by
    rw [hsnd, hmarks, hfilter, hflag, Bool.false_or]
  rw [← h1, ← h2]

/-! ## Divergence of the fixpoint loop on inconsistent knowledge (C4) -/

theorem div_inert {s : Sentence}
    (hshape : (s.cells = {cellA, cellB} ∧ (s.count = 4 ∨ s.count = 1)) ∨
      ((s.cells = {cellA} ∨ s.cells = {cellB}) ∧ s.count % 3 = 2)) :
    s.known_mines = ∅ ∧ s.known_safes = ∅ := by
  have hmines : s.count ≠ (s.cells.card : Int) → s.known_mines = ∅ := by
    intro h
    unfold Sentence.known_mines
    rw [if_neg h]
  have hsafes : s.count ≠ 0 → s.known_safes = ∅ := by
    intro h
    unfold Sentence.known_safes
    rw [if_neg (fun hc => h hc.1)]
  rcases hshape with ⟨hc, hcount⟩ | ⟨hc, hcount⟩
  · have hcard : (s.cells.card : Int) = 2 := by rw [hc]; decide
    constructor
    · refine hmines ?_
      rw [hcard]
      omega
    · refine hsafes ?_
      omega
  · have hcard : (s.cells.card : Int) = 1 := by
      rcases hc with hc | hc <;> rw [hc] <;> decide
    constructor
    · refine hmines ?_
      rw [hcard]
      omega
    · refine hsafes ?_
      omega

/-- Every inference drawn from a `DivState` knowledge list is a singleton
sentence with count ≡ 2 (mod 3), bounded by the current extrema. -/
theorem div_infs_shape {ai : AI} (hd : DivState ai) {α β : Int}
    (hα : ∀ s ∈ ai.knowledge, s.cells = {cellA} → s.count ≤ α)
    (hβ : ∀ s ∈ ai.knowledge, s.cells = {cellB} → β ≤ s.count) :
    ∀ x ∈ inferencesFor ai.knowledge,
      (x.cells = {cellA} ∧ x.count % 3 = 2 ∧ x.count ≤ 4 - β) ∨
        (x.cells = {cellB} ∧ x.count % 3 = 2 ∧ 1 - α ≤ x.count) := by
  intro x hx
  obtain ⟨s1, h1, s2, h2, ⟨hne, hsub⟩, rfl, -⟩ := mem_inferencesFor hx
  rcases hd.shape s1 h1 with ⟨hc1, hcount1⟩ | ⟨hc1, -⟩
  · rcases hd.shape s2 h2 with ⟨hc2, -⟩ | ⟨hc2, hcount2⟩
    · exact absurd (hc1.trans hc2.symm) hne
    · rcases hc2 with hc2 | hc2
      · refine Or.inr ⟨?_, ?_, ?_⟩
        · show s1.cells \ s2.cells = {cellB}
          rw [hc1, hc2]
          decide
        · show (s1.count - s2.count) % 3 = 2
          omega
        · show 1 - α ≤ s1.count - s2.count
          have := hα s2 h2 hc2
          omega
      · refine Or.inl ⟨?_, ?_, ?_⟩
        · show s1.cells \ s2.cells = {cellA}
          rw [hc1, hc2]
          decide
        · show (s1.count - s2.count) % 3 = 2
          omega
        · show s1.count - s2.count ≤ 4 - β
          have := hβ s2 h2 hc2
          omega
  · exfalso
    rcases hd.shape s2 h2 with ⟨hc2, -⟩ | ⟨hc2, -⟩
    · rcases hc1 with hc1 | hc1
      · have : cellB ∈ s1.cells := hsub (by rw [hc2]; decide)
        rw [hc1] at this
        exact absurd this (by decide)
      · have : cellA ∈ s1.cells := hsub (by rw [hc2]; decide)
        rw [hc1] at this
        exact absurd this (by decide)
    · rcases hc1 with hc1 | hc1 <;> rcases hc2 with hc2 | hc2
      · exact hne (hc1.trans hc2.symm)
      · have : cellB ∈ s1.cells := hsub (by rw [hc2]; decide)
        rw [hc1] at this
        exact absurd this (by decide)
      · have : cellA ∈ s1.cells := hsub (by rw [hc2]; decide)
        rw [hc1] at this
        exact absurd this (by decide)
      · exact hne (hc1.trans hc2.symm)

theorem div_inf_b_mem {ai : AI} (hd : DivState ai) {α : Int}
    (hαmem : (⟨{cellA}, α⟩ : Sentence) ∈ ai.knowledge)
    (hnot : (⟨{cellB}, 1 - α⟩ : Sentence) ∉ ai.knowledge) :
    (⟨{cellB}, 1 - α⟩ : Sentence) ∈ inferencesFor ai.knowledge := by
  have heq : mkInference ⟨{cellA, cellB}, 1⟩ ⟨{cellA}, α⟩ = ⟨{cellB}, 1 - α⟩ := by
    unfold mkInference
    rw [show ({cellA, cellB} : Finset Cell) \ {cellA} = {cellB} from by decide]
  have hcomp := inferencesFor_complete hd.seed1 hαmem
    (show ({cellA, cellB} : Finset Cell) ≠ {cellA} from by decide)
    (show ({cellA} : Finset Cell) ⊆ {cellA, cellB} from by decide)
  rw [heq] at hcomp
  rcases hcomp with h | h
  · exact absurd h hnot
  · exact h

theorem div_inf_a_mem {ai : AI} (hd : DivState ai) {β : Int}
    (hβmem : (⟨{cellB}, β⟩ : Sentence) ∈ ai.knowledge)
    (hnot : (⟨{cellA}, 4 - β⟩ : Sentence) ∉ ai.knowledge) :
    (⟨{cellA}, 4 - β⟩ : Sentence) ∈ inferencesFor ai.knowledge := by
  have heq : mkInference ⟨{cellA, cellB}, 4⟩ ⟨{cellB}, β⟩ = ⟨{cellA}, 4 - β⟩ := by
    unfold mkInference
    rw [show ({cellA, cellB} : Finset Cell) \ {cellB} = {cellA} from by decide]
  have hcomp := inferencesFor_complete hd.seed4 hβmem
    (show ({cellA, cellB} : Finset Cell) ≠ {cellB} from by decide)
    (show ({cellB} : Finset Cell) ⊆ {cellA, cellB} from by decide)
  rw [heq] at hcomp
  rcases hcomp with h | h
  · exact absurd h hnot
  · exact h

/-- On a `DivState` knowledge base, every pass of the loop reports a change
and re-establishes `DivState`: the loop never reaches a fixpoint. -/
theorem divStep {ai : AI} (hd : DivState ai) :
    (loopStep ai).2 = true ∧ DivState (loopStep ai).1 := by
  have hm : ∀ s ∈ ai.knowledge, s.known_mines = ∅ :=
    fun s hs => (div_inert (hd.shape s hs)).1
  have hsafes : ∀ s ∈ ai.knowledge, s.known_safes = ∅ :=
    fun s hs => (div_inert (hd.shape s hs)).2
  have hp : ∀ s ∈ ai.knowledge, ∀ c ∈ s.cells, c ∉ ai.mines := by
    intro s hs c hc
    rw [hd.mines_empty]
    exact Finset.not_mem_empty c
  have hne : ∀ s ∈ ai.knowledge, s.cells.Nonempty := by
    intro s hs
    rcases hd.shape s hs with ⟨hc, -⟩ | ⟨hc | hc, -⟩ <;> rw [hc] <;> decide
  have hstep := loopStep_of_no_marks hm hsafes hp hne
  obtain ⟨α, hαmem, hαmax⟩ := hd.amax
  obtain ⟨β, hβmem, hβmin⟩ := hd.bmin
  have hinfs_ne : inferencesFor ai.knowledge ≠ [] := by
    by_cases hcase : 1 - α < β
    · have hnot : (⟨{cellB}, 1 - α⟩ : Sentence) ∉ ai.knowledge := by
        intro hmem
        have h2 : β ≤ 1 - α := hβmin _ hmem rfl
        omega
      have hmem2 := div_inf_b_mem hd hαmem hnot
      intro hnil
      rw [hnil] at hmem2
      cases hmem2
    · have hnot : (⟨{cellA}, 4 - β⟩ : Sentence) ∉ ai.knowledge := by
        intro hmem
        have h2 : 4 - β ≤ α := hαmax _ hmem rfl
        omega
      have hmem2 := div_inf_a_mem hd hβmem hnot
      intro hnil
      rw [hnil] at hmem2
      cases hmem2
  have hisEmpty : (inferencesFor ai.knowledge).isEmpty = false := by
    cases hi : inferencesFor ai.knowledge with
    | nil => exact absurd hi hinfs_ne
    | cons a t => rfl
  constructor
  · rw [hstep]
    show (!(inferencesFor ai.knowledge).isEmpty) = true
    rw [hisEmpty]
    rfl
  · rw [hstep]
    show DivState { ai with knowledge := ai.knowledge ++ inferencesFor ai.knowledge }
    have hshape' : ∀ s ∈ ai.knowledge ++ inferencesFor ai.knowledge,
        (s.cells = {cellA, cellB} ∧ (s.count = 4 ∨ s.count = 1)) ∨
          ((s.cells = {cellA} ∨ s.cells = {cellB}) ∧ s.count % 3 = 2) := by
      intro s hs
      rcases List.mem_append.mp hs with h | h
      · exact hd.shape s h
      · rcases div_infs_shape hd hαmax hβmin s h with ⟨hc, h3, -⟩ | ⟨hc, h3, -⟩
        · exact Or.inr ⟨Or.inl hc, h3⟩
        · exact Or.inr ⟨Or.inr hc, h3⟩
    refine ⟨hd.mines_empty, List.mem_append_left _ hd.seed4,
      List.mem_append_left _ hd.seed1, hshape', ?_, ?_⟩
    · by_cases hc4 : α < 4 - β
      · have hnot : (⟨{cellA}, 4 - β⟩ : Sentence) ∉ ai.knowledge := by
          intro hmem
          have h2 : 4 - β ≤ α := hαmax _ hmem rfl
          omega
        refine ⟨4 - β, List.mem_append_right _ (div_inf_a_mem hd hβmem hnot), ?_⟩
        intro s hs hcells
        rcases List.mem_append.mp hs with h | h
        · exact le_trans (hαmax s h hcells) (le_of_lt hc4)
        · rcases div_infs_shape hd hαmax hβmin s h with ⟨-, -, hb⟩ | ⟨hcB, -, -⟩
          · exact hb
          · rw [hcells] at hcB
            exact absurd hcB (by decide)
      · refine ⟨α, List.mem_append_left _ hαmem, ?_⟩
        intro s hs hcells
        rcases List.mem_append.mp hs with h | h
        · exact hαmax s h hcells
        · rcases div_infs_shape hd hαmax hβmin s h with ⟨-, -, hb⟩ | ⟨hcB, -, -⟩
          · omega
          · rw [hcells] at hcB
            exact absurd hcB (by decide)
    · by_cases hc1 : 1 - α < β
      · have hnot : (⟨{cellB}, 1 - α⟩ : Sentence) ∉ ai.knowledge := by
          intro hmem
          have h2 : β ≤ 1 - α := hβmin _ hmem rfl
          omega
        refine ⟨1 - α, List.mem_append_right _ (div_inf_b_mem hd hαmem hnot), ?_⟩
        intro s hs hcells
        rcases List.mem_append.mp hs with h | h
        · exact le_trans (le_of_lt hc1) (hβmin s h hcells)
        · rcases div_infs_shape hd hαmax hβmin s h with ⟨hcA, -, -⟩ | ⟨-, -, hb⟩
          · rw [hcells] at hcA
            exact absurd hcA (by decide)
          · exact hb
      · refine ⟨β, List.mem_append_left _ hβmem, ?_⟩
        intro s hs hcells
        rcases List.mem_append.mp hs with h | h
        · exact hβmin s h hcells
        · rcases div_infs_shape hd hαmax hβmin s h with ⟨hcA, -, -⟩ | ⟨-, -, hb⟩
          · rw [hcells] at hcA
            exact absurd hcA (by decide)
          · omega

theorem seedAfterPass_eq :
    (loopStep (addObservation seedAI (9, 9) 0)).1 = seedAfterPass := by
  decide

theorem seedAfterPass_divState : DivState seedAfterPass := by
  refine ⟨by decide, by decide, by decide, by decide, ⟨2, by decide, by decide⟩,
    ⟨-1, by decide, by decide⟩⟩

theorem divState_all (n : Nat) : DivState (passIter n seedAfterPass) := by
  induction n with
  | zero => exact seedAfterPass_divState
  | succ m ih =>
    have hstep : passIter (m + 1) seedAfterPass = (loopStep (passIter m seedAfterPass)).1 := by
      unfold passIter
      rw [Function.iterate_succ_apply']
    rw [hstep]
    exact (divStep ih).2

/-- C4 counterexample: the `while kb_updated` loop of `add_knowledge` does
NOT terminate for every call on every knowledge base over a fixed finite
grid: on the 2×2 knowledge base `seedAI` holding the inconsistent sentences
`{A,B} = 4`, `{A,B} = 1`, `{A} = 2`, the call `add_knowledge((9,9), 0)`
makes every pass of the loop report a change — the subset-inference rule
keeps producing singleton sentences with new counts (α, α+3, α+6, … and
β, β−3, β−6, …) and no pass ever reaches a fixpoint. -/
theorem add_knowledge_loop_diverges :
    ¬ loopTerminates (addObservation seedAI (9, 9) 0) := by
  rintro ⟨n, hn⟩
  cases n with
  | zero =>
    have h0 : (loopStep (passIter 0 (addObservation seedAI (9, 9) 0))).2 = true := by
      decide
    rw [hn] at h0
    cases h0
  | succ m =>
    have hshift : passIter (m + 1) (addObservation seedAI (9, 9) 0) =
        passIter m seedAfterPass := by
      unfold passIter
      rw [Function.iterate_succ_apply]
      show (fun t => (loopStep t).1)^[m] ((loopStep (addObservation seedAI (9, 9) 0)).1) = _
      rw [seedAfterPass_eq]
    rw [hshift] at hn
    have htrue := (divStep (divState_all m)).1
    rw [hn] at htrue
    cases htrue

/-! ## Termination of the loop under sound knowledge (C4, amended part) -/

theorem enumCells_toFinset (s : Finset Cell) : (enumCells s).toFinset = s := by
  ext c
  rw [List.mem_toFinset, mem_enumCells]

theorem applyMarks_mines (ai : AI) :
    (applyMarks ai).mines = ai.mines ∪ passKnownMines ai.knowledge := by
  unfold applyMarks
  obtain ⟨-, -, -, hm, -⟩ :=
    foldl_mark_safe_fields (enumCells (passKnownSafes ai.knowledge))
      ((enumCells (passKnownMines ai.knowledge)).foldl AI.mark_mine
        { ai with knowledge := purgeKnowledge ai.mines ai.knowledge })
  obtain ⟨-, -, -, -, hn⟩ :=
    foldl_mark_mine_fields (enumCells (passKnownMines ai.knowledge))
      { ai with knowledge := purgeKnowledge ai.mines ai.knowledge }
  rw [hm, hn, enumCells_toFinset]

theorem applyMarks_safes (ai : AI) :
    (applyMarks ai).safes = ai.safes ∪ passKnownSafes ai.knowledge := by
  unfold applyMarks
  obtain ⟨-, -, -, -, hs⟩ :=
    foldl_mark_safe_fields (enumCells (passKnownSafes ai.knowledge))
      ((enumCells (passKnownMines ai.knowledge)).foldl AI.mark_mine
        { ai with knowledge := purgeKnowledge ai.mines ai.knowledge })
  obtain ⟨-, -, -, hm, -⟩ :=
    foldl_mark_mine_fields (enumCells (passKnownMines ai.knowledge))
      { ai with knowledge := purgeKnowledge ai.mines ai.knowledge }
  rw [hs, hm, enumCells_toFinset]

theorem subset_passKnownMines {kb : List Sentence} {s : Sentence} (hs : s ∈ kb) :
    s.known_mines ⊆ passKnownMines kb := by
  unfold passKnownMines
  have hmono : ∀ (l : List Sentence) (acc : Finset Cell), acc ⊆ l.foldl knownMinesStep acc := by
    intro l
    induction l with
    | nil => exact fun acc => Finset.Subset.refl acc
    | cons t tl ih =>
      intro acc
      refine Finset.Subset.trans ?_ (ih (knownMinesStep acc t))
      unfold knownMinesStep
      split
      · exact Finset.subset_union_left
      · exact Finset.Subset.refl acc
  suffices hgen : ∀ (l : List Sentence) (acc : Finset Cell), s ∈ l →
      s.known_mines ⊆ l.foldl knownMinesStep acc from hgen kb ∅ hs
  intro l
  induction l with
  | nil => intro acc h; cases h
  | cons t tl ih =>
    intro acc hmem
    rcases List.mem_cons.mp hmem with rfl | hmem
    · rw [List.foldl_cons]
      refine Finset.Subset.trans ?_ (hmono tl (knownMinesStep acc s))
      unfold knownMinesStep
      by_cases hne : s.known_mines.Nonempty
      · rw [if_pos hne]
        exact Finset.subset_union_right
      · rw [Finset.not_nonempty_iff_eq_empty.mp hne]
        exact Finset.empty_subset _
    · rw [List.foldl_cons]
      exact ih _ hmem

theorem subset_passKnownSafes {kb : List Sentence} {s : Sentence} (hs : s ∈ kb)
    (hkm : s.known_mines = ∅) : s.known_safes ⊆ passKnownSafes kb := by
  unfold passKnownSafes
  have hmono : ∀ (l : List Sentence) (acc : Finset Cell), acc ⊆ l.foldl knownSafesStep acc := by
    intro l
    induction l with
    | nil => exact fun acc => Finset.Subset.refl acc
    | cons t tl ih =>
      intro acc
      refine Finset.Subset.trans ?_ (ih (knownSafesStep acc t))
      unfold knownSafesStep
      split
      · exact Finset.Subset.refl acc
      · split
        · exact Finset.subset_union_left
        · exact Finset.Subset.refl acc
  suffices hgen : ∀ (l : List Sentence) (acc : Finset Cell), s ∈ l →
      s.known_safes ⊆ l.foldl knownSafesStep acc from hgen kb ∅ hs
  intro l
  induction l with
  | nil => intro acc h; cases h
  | cons t tl ih =>
    intro acc hmem
    rcases List.mem_cons.mp hmem with rfl | hmem
    · rw [List.foldl_cons]
      refine Finset.Subset.trans ?_ (hmono tl (knownSafesStep acc s))
      unfold knownSafesStep
      rw [hkm, if_neg Finset.not_nonempty_empty]
      by_cases hne : s.known_safes.Nonempty
      · rw [if_pos hne]
        exact Finset.subset_union_right
      · rw [Finset.not_nonempty_iff_eq_empty.mp hne]
        exact Finset.empty_subset _
    · rw [List.foldl_cons]
      exact ih _ hmem

/-- Under the soundness invariant the knowledge list holds at most
`2 ^ |board|` distinct sentence values: a sound sentence is determined by
its cell set, which is a subset of the board. -/
theorem knowledge_card_le {M : Finset Cell} {ai : AI} (inv : InvAI M ai) :
    ai.knowledge.toFinset.card ≤ 2 ^ (boardCells ai.height ai.width).card := by
  have hinj : Set.InjOn Sentence.cells ai.knowledge.toFinset := by
    intro s hs t ht hcells
    have hs' : s ∈ ai.knowledge := List.mem_toFinset.mp hs
    have ht' : t ∈ ai.knowledge := List.mem_toFinset.mp ht
    have h1 := inv.sound s hs'
    have h2 := inv.sound t ht'
    cases s with
    | mk cs cc =>
      cases t with
      | mk ts tc =>
        simp only at hcells
        subst hcells
        have hcc : cc = tc := by
          have e1 : ((cs ∩ M).card : Int) = cc := h1
          have e2 : ((cs ∩ M).card : Int) = tc := h2
          omega
        rw [hcc]
  calc ai.knowledge.toFinset.card
      = (ai.knowledge.toFinset.image Sentence.cells).card :=
        (Finset.card_image_of_injOn hinj).symm
    _ ≤ (boardCells ai.height ai.width).powerset.card := by
        refine Finset.card_le_card ?_
        intro x hx
        obtain ⟨s, hs, rfl⟩ := Finset.mem_image.mp hx
        exact Finset.mem_powerset.mpr (inv.ongrid s (List.mem_toFinset.mp hs))
    _ = 2 ^ (boardCells ai.height ai.width).card := Finset.card_powerset _

theorem measureAI_loopStep (ai : AI) :
    measureAI (loopStep ai).1 =
      ((boardCells ai.height ai.width).card -
          (((applyMarks ai).mines ∪ (applyMarks ai).safes) ∩
            boardCells ai.height ai.width).card) *
        (2 ^ (boardCells ai.height ai.width).card + 1) +
      (2 ^ (boardCells ai.height ai.width).card -
        (loopStep ai).1.knowledge.toFinset.card) := by
  unfold measureAI
  obtain ⟨hh, hw⟩ := loopStep_height_width ai
  obtain ⟨-, -, -, hm, hsf⟩ := loopStep_fst_fields ai
  rw [hh, hw, hm, hsf]

/-- A pass in which some sentence fires `known_mines()` or `known_safes()`
marks a board cell that was not marked before. -/
theorem trigger_mark_growth {M : Finset Cell} {ai : AI} (inv : InvAI M ai)
    (htrig : ∃ s ∈ ai.knowledge, s.known_mines.Nonempty ∨ s.known_safes.Nonempty) :
    ∃ c, c ∈ ((applyMarks ai).mines ∪ (applyMarks ai).safes) ∧
      c ∉ (ai.mines ∪ ai.safes) ∧ c ∈ boardCells ai.height ai.width := by
  obtain ⟨s, hs, htr⟩ := htrig
  have hmines := applyMarks_mines ai
  have hsafes := applyMarks_safes ai
  by_cases hk : s.known_mines.Nonempty
  · obtain ⟨c, hc⟩ := hk
    have hcells : c ∈ s.cells := known_mines_subset_cells s hc
    refine ⟨c, ?_, ?_, inv.ongrid s hs hcells⟩
    · rw [hmines]
      exact Finset.mem_union_left _ (Finset.mem_union_right _ (subset_passKnownMines hs hc))
    · rw [Finset.mem_union]
      rintro (h | h)
      · exact inv.minefree s hs c hcells h
      · exact inv.safefree s hs c hcells h
  · rcases htr with htr | htr
    · exact absurd htr hk
    · obtain ⟨c, hc⟩ := htr
      have hcells : c ∈ s.cells := known_safes_subset_cells s hc
      refine ⟨c, ?_, ?_, inv.ongrid s hs hcells⟩
      · rw [hsafes]
        refine Finset.mem_union_right _ (Finset.mem_union_right _ ?_)
        exact subset_passKnownSafes hs (Finset.not_nonempty_iff_eq_empty.mp hk) hc
      · rw [Finset.mem_union]
        rintro (h | h)
        · exact inv.minefree s hs c hcells h
        · exact inv.safefree s hs c hcells h

/-- Every pass that reports a change strictly decreases the measure on a
sound knowledge base with no empty sentences. -/
theorem measure_lt {M : Finset Cell} {ai : AI} (inv : InvAI M ai)
    (hne : ∀ s ∈ ai.knowledge, s.cells.Nonempty)
    (hflag : (loopStep ai).2 = true) : measureAI (loopStep ai).1 < measureAI ai := by
  rw [measureAI_loopStep]
  unfold measureAI
  by_cases htrig : ∃ s ∈ ai.knowledge, s.known_mines.Nonempty ∨ s.known_safes.Nonempty
  · obtain ⟨c, hc_in, hc_out, hc_board⟩ := trigger_mark_growth inv htrig
    have hmono : ai.mines ∪ ai.safes ⊆ (applyMarks ai).mines ∪ (applyMarks ai).safes := by
      rw [applyMarks_mines, applyMarks_safes]
      intro x hx
      rcases Finset.mem_union.mp hx with h | h
      · exact Finset.mem_union_left _ (Finset.mem_union_left _ h)
      · exact Finset.mem_union_right _ (Finset.mem_union_left _ h)
    have hss : ((ai.mines ∪ ai.safes) ∩ boardCells ai.height ai.width) ⊂
        (((applyMarks ai).mines ∪ (applyMarks ai).safes) ∩ boardCells ai.height ai.width) := by
      refine Finset.ssubset_iff_of_subset
        (Finset.inter_subset_inter hmono (Finset.Subset.refl _)) |>.mpr ?_
      exact ⟨c, Finset.mem_inter.mpr ⟨hc_in, hc_board⟩,
        fun h => hc_out (Finset.mem_inter.mp h).1⟩
    have hcard_lt := Finset.card_lt_card hss
    have hcard_le : (((applyMarks ai).mines ∪ (applyMarks ai).safes) ∩
        boardCells ai.height ai.width).card ≤ (boardCells ai.height ai.width).card :=
      Finset.card_le_card Finset.inter_subset_right
    set g := (boardCells ai.height ai.width).card
    set m1 := ((ai.mines ∪ ai.safes) ∩ boardCells ai.height ai.width).card
    set m2 := (((applyMarks ai).mines ∪ (applyMarks ai).safes) ∩
      boardCells ai.height ai.width).card
    have hA : (g - m2) + 1 ≤ g - m1 := by omega
    have hB1 : 2 ^ g - (loopStep ai).1.knowledge.toFinset.card ≤ 2 ^ g := Nat.sub_le _ _
    calc (g - m2) * (2 ^ g + 1) + (2 ^ g - (loopStep ai).1.knowledge.toFinset.card)
        ≤ (g - m2) * (2 ^ g + 1) + 2 ^ g := by omega
      _ < (g - m2) * (2 ^ g + 1) + (2 ^ g + 1) := by omega
      _ = ((g - m2) + 1) * (2 ^ g + 1) := by ring
      _ ≤ (g - m1) * (2 ^ g + 1) := Nat.mul_le_mul_right _ hA
      _ ≤ (g - m1) * (2 ^ g + 1) + (2 ^ g - ai.knowledge.toFinset.card) :=
          Nat.le_add_right _ _
  · have hm : ∀ s ∈ ai.knowledge, s.known_mines = ∅ := by
      intro s hs
      rw [← Finset.not_nonempty_iff_eq_empty]
      exact fun h => htrig ⟨s, hs, Or.inl h⟩
    have hsafes : ∀ s ∈ ai.knowledge, s.known_safes = ∅ := by
      intro s hs
      rw [← Finset.not_nonempty_iff_eq_empty]
      exact fun h => htrig ⟨s, hs, Or.inr h⟩
    have hstep := loopStep_of_no_marks hm hsafes inv.minefree hne
    have hmarks : applyMarks ai = ai := applyMarks_of_no_marks hm hsafes inv.minefree
    rw [hstep] at hflag
    have hinfs_ne : inferencesFor ai.knowledge ≠ [] := by
      intro hnil
      rw [hnil] at hflag
      cases hflag
    obtain ⟨x, hx⟩ : ∃ x, x ∈ inferencesFor ai.knowledge := by
      cases hi : inferencesFor ai.knowledge with
      | nil => exact absurd hi hinfs_ne
      | cons a t =>
        exact ⟨a, List.mem_cons_self a t⟩
    have hx_not : x ∉ ai.knowledge := by
      obtain ⟨-, -, -, -, -, -, hnot⟩ := mem_inferencesFor hx
      exact hnot
    have hknow : (loopStep ai).1.knowledge = ai.knowledge ++ inferencesFor ai.knowledge := by
      rw [hstep]
    have hss : ai.knowledge.toFinset ⊂ (loopStep ai).1.knowledge.toFinset := by
      rw [hknow, List.toFinset_append]
      refine Finset.ssubset_iff_of_subset Finset.subset_union_left |>.mpr ?_
      exact ⟨x, Finset.mem_union_right _ (List.mem_toFinset.mpr hx),
        fun h => hx_not (List.mem_toFinset.mp h)⟩
    have hcard_lt := Finset.card_lt_card hss
    have hbound : (loopStep ai).1.knowledge.toFinset.card ≤
        2 ^ (boardCells ai.height ai.width).card := by
      have hres := knowledge_card_le (loopStep_invariant inv)
      obtain ⟨hh, hw⟩ := loopStep_height_width ai
      rwa [hh, hw] at hres
    rw [hmarks]
    refine Nat.add_lt_add_left ?_ _
    omega

/-- Strong induction on the measure: the loop reaches a pass that reports no
change. -/
theorem loopTerminates_of_inv {M : Finset Cell} :
    ∀ (n : Nat) (ai : AI), measureAI ai ≤ n → InvAI M ai →
      (∀ s ∈ ai.knowledge, s.cells.Nonempty) → loopTerminates ai := by
  intro n
  induction n with
  | zero =>
    intro ai hle inv hne
    cases hflag : (loopStep ai).2 with
    | false => exact ⟨0, hflag⟩
    | true =>
      have := measure_lt inv hne hflag
      omega
  | succ m ih =>
    intro ai hle inv hne
    cases hflag : (loopStep ai).2 with
    | false => exact ⟨0, hflag⟩
    | true =>
      have hlt := measure_lt inv hne hflag
      obtain ⟨k, hk⟩ := ih (loopStep ai).1 (by omega) (loopStep_invariant inv)
        (loopStep_cells_nonempty ai)
      refine ⟨k + 1, ?_⟩
      have hsh : passIter (k + 1) ai = passIter k (loopStep ai).1 := by
        unfold passIter
        rw [Function.iterate_succ_apply]
      rw [hsh]
      exact hk

/-- C4 amended: for every call of `add_knowledge` on a knowledge base that
is sound for some mine set `M` (as every knowledge base reached by accurate
play is), with the call itself accurate (probed cell not a mine, count the
number of `M`-mines among its neighbours), the `while kb_updated` loop
terminates: some pass reports no change.  (For inconsistent knowledge the
loop can run forever: see `add_knowledge_loop_diverges`.) -/
theorem add_knowledge_loop_terminates {M : Finset Cell} {ai : AI} (inv : InvAI M ai)
    {cell : Cell} {count : Int} (hcell : cell ∉ M)
    (hcount : count = (((neighbors ai.height ai.width cell) ∩ M).card : Int)) :
    loopTerminates (addObservation ai cell count) := by
  have inv0 : InvAI M (addObservation ai cell count) :=
    addObservation_invariant inv hcell hcount
  cases hflag : (loopStep (addObservation ai cell count)).2 with
  | false => exact ⟨0, hflag⟩
  | true =>
    obtain ⟨k, hk⟩ := loopTerminates_of_inv (measureAI (loopStep (addObservation ai cell count)).1)
      (loopStep (addObservation ai cell count)).1 (le_refl _) (loopStep_invariant inv0)
      (loopStep_cells_nonempty _)
    refine ⟨k + 1, ?_⟩
    have hsh : passIter (k + 1) (addObservation ai cell count) =
        passIter k (loopStep (addObservation ai cell count)).1 := by
      unfold passIter
      rw [Function.iterate_succ_apply]
    rw [hsh]
    exact hk

theorem add_knowledge_loop_terminates_witness :
    loopTerminates (addObservation (initAI 1 2) (0, 0) 1) :=
  add_knowledge_loop_terminates (initAI_invariant {((0:Int),(1:Int))} 1 2)
    (by decide) (by decide)

/-! ## C1, general form -/

/-- C1: subset inference is the core deductive step.  For any distinct cells
`A`, `B`, `C`, if the knowledge base holds the sentences `{A,B,C} = 1` and
`{A,B} = 1` (and no marked mines), the inference fixpoint inside
`add_knowledge` derives the sentence `{C} = 0` — cells
`S1.cells − S2.cells`, count `S1.count − S2.count` — in its first pass, and
on the following pass `C` is added to the global safes set. -/
theorem subset_inference_derives_safe {ai : AI} {A B C : Cell}
    (hAB : A ≠ B) (hAC : A ≠ C) (hBC : B ≠ C)
    (hkb : ai.knowledge = [⟨{A, B, C}, 1⟩, ⟨{A, B}, 1⟩])
    (hmines : ai.mines = ∅) :
    (⟨{C}, 0⟩ : Sentence) ∈ (loopStep ai).1.knowledge ∧
      C ∈ (loopStep (loopStep ai).1).1.safes := by
  have hcard3 : ({A, B, C} : Finset Cell).card = 3 := by
    rw [Finset.card_insert_of_not_mem (by simp [hAB, hAC]),
      Finset.card_insert_of_not_mem (by simp [hBC]), Finset.card_singleton]
  have hcard2 : ({A, B} : Finset Cell).card = 2 := by
    rw [Finset.card_insert_of_not_mem (by simp [hAB]), Finset.card_singleton]
  have hm : ∀ s ∈ ai.knowledge, s.known_mines = ∅ := by
    rw [hkb]
    intro s hs
    rcases List.mem_cons.mp hs with rfl | hs
    · unfold Sentence.known_mines
      rw [if_neg]
      show (1 : Int) ≠ (({A, B, C} : Finset Cell).card : Int)
      rw [hcard3]
      omega
    rcases List.mem_cons.mp hs with rfl | hs
    · unfold Sentence.known_mines
      rw [if_neg]
      show (1 : Int) ≠ (({A, B} : Finset Cell).card : Int)
      rw [hcard2]
      omega
    · cases hs
  have hsafes : ∀ s ∈ ai.knowledge, s.known_safes = ∅ := by
    rw [hkb]
    intro s hs
    have hcount : s.count = 1 := by
      rcases List.mem_cons.mp hs with rfl | hs
      · rfl
      rcases List.mem_cons.mp hs with rfl | hs
      · rfl
      · cases hs
    unfold Sentence.known_safes
    rw [if_neg]
    rw [hcount]
    rintro ⟨h, -⟩
    cases h
  have hp : ∀ s ∈ ai.knowledge, ∀ c ∈ s.cells, c ∉ ai.mines := by
    intro s _ c _
    rw [hmines]
    exact Finset.not_mem_empty c
  have hne : ∀ s ∈ ai.knowledge, s.cells.Nonempty := by
    rw [hkb]
    intro s hs
    rcases List.mem_cons.mp hs with rfl | hs
    · exact Finset.insert_nonempty _ _
    rcases List.mem_cons.mp hs with rfl | hs
    · exact Finset.insert_nonempty _ _
    · cases hs
  have hstep := loopStep_of_no_marks hm hsafes hp hne
  have hdiff : ({A, B, C} : Finset Cell) \ {A, B} = {C} := by
    ext x
    simp only [Finset.mem_sdiff, Finset.mem_insert, Finset.mem_singleton]
    constructor
    · rintro ⟨hx, hnx⟩
      rcases hx with rfl | rfl | rfl
      · exact absurd (Or.inl rfl) hnx
      · exact absurd (Or.inr rfl) hnx
      · rfl
    · rintro rfl
      refine ⟨Or.inr (Or.inr rfl), ?_⟩
      rintro (rfl | rfl)
      · exact hAC rfl
      · exact hBC rfl
  have hmk : mkInference ⟨{A, B, C}, 1⟩ ⟨{A, B}, 1⟩ = ⟨{C}, 0⟩ := by
    unfold mkInference
    rw [hdiff]
    norm_num
  have hne_cells : ({A, B, C} : Finset Cell) ≠ ({A, B} : Finset Cell) := by
    intro h
    have hCmem : C ∈ ({A, B, C} : Finset Cell) := by simp
    rw [h] at hCmem
    rcases Finset.mem_insert.mp hCmem with rfl | hCmem
    · exact hAC rfl
    · exact hBC (Finset.mem_singleton.mp hCmem).symm
  have hsub : ({A, B} : Finset Cell) ⊆ ({A, B, C} : Finset Cell) := by
    intro x hx
    rcases Finset.mem_insert.mp hx with rfl | hx
    · simp
    · rw [Finset.mem_singleton.mp hx]
      simp
  have hmem1 : (⟨{A, B, C}, 1⟩ : Sentence) ∈ ai.knowledge := by
    rw [hkb]
    exact List.mem_cons_self _ _
  have hmem2 : (⟨{A, B}, 1⟩ : Sentence) ∈ ai.knowledge := by
    rw [hkb]
    exact List.mem_cons_of_mem _ (List.mem_cons_self _ _)
  have hC0 : (⟨{C}, 0⟩ : Sentence) ∈ inferencesFor ai.knowledge := by
    have hcomp := inferencesFor_complete hmem1 hmem2 hne_cells hsub
    rw [hmk] at hcomp
    rcases hcomp with h | h
    · exfalso
      rw [hkb] at h
      rcases List.mem_cons.mp h with heq | h
      · have : (0 : Int) = 1 := congrArg Sentence.count heq
        cases this
      rcases List.mem_cons.mp h with heq | h
      · have : (0 : Int) = 1 := congrArg Sentence.count heq
        cases this
      · cases h
    · exact h
  have hpart1 : (⟨{C}, 0⟩ : Sentence) ∈ (loopStep ai).1.knowledge := by
    rw [hstep]
    exact List.mem_append_right _ hC0
  refine ⟨hpart1, ?_⟩
  have hfields := loopStep_fst_fields (loopStep ai).1
  rw [hfields.2.2.2.2, applyMarks_safes]
  refine Finset.mem_union_right _ ?_
  have hkm : (⟨{C}, 0⟩ : Sentence).known_mines = ∅ := by
    unfold Sentence.known_mines
    rw [if_neg]
    show (0 : Int) ≠ (({C} : Finset Cell).card : Int)
    rw [Finset.card_singleton]
    omega
  refine subset_passKnownSafes hpart1 hkm ?_
  unfold Sentence.known_safes
  rw [if_pos ⟨rfl, Finset.singleton_nonempty C⟩]
  exact Finset.mem_singleton_self C

theorem subset_inference_derives_safe_witness :
    (⟨{((0:Int),(2:Int))}, 0⟩ : Sentence) ∈ (loopStep subsetScenario).1.knowledge ∧
      ((0:Int), (2:Int)) ∈ (loopStep (loopStep subsetScenario).1).1.safes :=
  subset_inference_derives_safe (by decide) (by decide) (by decide) rfl rfl
